import Mathlib

/-! Rotation and permutation engine of `rubiks.js`.

A shallow embedding of `src/rubiks.js`: the quaternion class, the pieces
(`Cube`), the module-level state (`cubes`, `selectedAxis`, `selectedIndex`,
`turnAnimStartTime`, `turnCounter`) and the functions that act on it
(`setup`, `keyPressed`, `isRCubeSolved`, `rotateAnim`, `applyAllRotations`,
`scrambleRCube`).

Modelling conventions:

* JavaScript numbers that hold quaternion components, angles and times are
  real numbers; rounding is not modelled, except in `fromAxisAngleWith` and
  `axisAngleWith`, which take the functions of `Math` as a parameter so that
  the branch `s != 0` of `axisAngle` can be followed on doubles (`doubleMath`).
* Lattice coordinates and the selection are integers (`Int`), because the code
  decrements the selection below zero before wrapping it.
* `turnCounter` is a natural number: the code only sets it to `0`, increments
  it, decrements it while it is positive, or sets it to `Math.floor(r * 4)`
  with `r ≥ 0`.
* The `p5.Vector` operations used by the code (`createVector`, `mult`, `add`,
  `cross`, `dot`, `normalize`) are library functions; they are modelled by
  their documented arithmetic.
* The global mutable variables become the fields of `State`, passed
  explicitly.
-/

namespace Rubiks

/-! ## p5.Vector -/

/-- A `p5.Vector` with its three components. -/
@[ext] structure Vector where
  x : ℝ
  y : ℝ
  z : ℝ

/-- `createVector(x, y, z)`. -/
def createVector (x y z : ℝ) : Vector := ⟨x, y, z⟩

/-- `p5.Vector.mult(v, n)`: multiplication by a scalar. -/
def Vector.mult (v : Vector) (n : ℝ) : Vector := ⟨v.x * n, v.y * n, v.z * n⟩

/-- `v.add(u)`: componentwise sum. -/
def Vector.add (v u : Vector) : Vector := ⟨v.x + u.x, v.y + u.y, v.z + u.z⟩

/-- `p5.Vector.cross(v, u)`. -/
def Vector.cross (v u : Vector) : Vector :=
  ⟨v.y * u.z - v.z * u.y, v.z * u.x - v.x * u.z, v.x * u.y - v.y * u.x⟩

/-- `p5.Vector.dot(v, u)`. -/
def Vector.dot (v u : Vector) : ℝ := v.x * u.x + v.y * u.y + v.z * u.z

/-- `v.mag()`: the Euclidean length. -/
noncomputable def Vector.mag (v : Vector) : ℝ :=
  Real.sqrt (v.x * v.x + v.y * v.y + v.z * v.z)

/-- `v.normalize()`: scales by `1 / len` unless the length is zero. -/
noncomputable def Vector.normalize (v : Vector) : Vector :=
  let len := v.mag
  if len ≠ 0 then v.mult (1 / len) else v

/-! ## Quaternion -/

/-- The class `Quaternion`; the defaults are those of its constructor. -/
@[ext] structure Quaternion where
  w : ℝ := 1
  i : ℝ := 0
  j : ℝ := 0
  k : ℝ := 0

/-- The result of `axisAngle()`. -/
structure AxisAngle where
  axis : Vector
  angle : ℝ

namespace Quaternion

/-- `Quaternion.fromAxisAngle([x, y, z], angle)`. -/
noncomputable def fromAxisAngle (axis : ℝ × ℝ × ℝ) (angle : ℝ) : Quaternion :=
  let h := angle / 2
  let s := Real.sin h
  ⟨Real.cos h, axis.1 * s, axis.2.1 * s, axis.2.2 * s⟩

/-- `Quaternion.mult(q1, q2)`. -/
def mult (q1 q2 : Quaternion) : Quaternion :=
  let v1 := createVector q1.i q1.j q1.k
  let v2 := createVector q2.i q2.j q2.k
  let v := ((v2.mult q1.w).add (v1.mult q2.w)).add (v1.cross v2)
  ⟨q1.w * q2.w - v1.dot v2, v.x, v.y, v.z⟩

/-- `q.magnitude()`. -/
noncomputable def magnitude (q : Quaternion) : ℝ :=
  Real.sqrt (q.w * q.w + q.i * q.i + q.j * q.j + q.k * q.k)

/-- `q.normalise()`, returning the updated quaternion. -/
noncomputable def normalise (q : Quaternion) : Quaternion :=
  let mag := q.magnitude
  ⟨q.w / mag, q.i / mag, q.j / mag, q.k / mag⟩

/-- `q.axisAngle()` in exact real arithmetic. `Math.acos` is `Real.arccos`; the
two agree on `[-1, 1]`, where the `w` of a unit quaternion lies. On doubles the
test `s != 0` can come out differently at and near `w = 1` and `w = -1`; see
`axisAngleWith`. -/
noncomputable def axisAngle (q : Quaternion) : AxisAngle :=
  let angle := 2 * Real.arccos q.w
  let s := Real.sin (angle / 2)
  let axis := createVector 1 0 0
  if s ≠ 0 then ⟨⟨q.i / s, q.j / s, q.k / s⟩, angle⟩ else ⟨axis, angle⟩

end Quaternion

/-! ## Constants -/

/-- `HALF_PI`. -/
noncomputable def HALF_PI : ℝ := Real.pi / 2

/-- `TWO_PI` (p5 constant). -/
noncomputable def TWO_PI : ℝ := 2 * Real.pi

/-- `cubeSize`: number of pieces along an edge. -/
def cubeSize : Nat := 3

/-- `qTurnTime`: milliseconds for a quarter turn. -/
def qTurnTime : ℝ := 256

/-- `xQuat`: a quarter turn about X. -/
noncomputable def xQuat : Quaternion := Quaternion.fromAxisAngle (1, 0, 0) HALF_PI

/-- `yQuat`: a quarter turn about Y. -/
noncomputable def yQuat : Quaternion := Quaternion.fromAxisAngle (0, 1, 0) HALF_PI

/-- `zQuat`: a quarter turn about Z. -/
noncomputable def zQuat : Quaternion := Quaternion.fromAxisAngle (0, 0, 1) HALF_PI

/-! ## Pieces and state -/

/-- The class `Cube`: lattice coordinates and orientation. The face colours
are constants set by `calculateColours` and play no part in the engine. -/
structure Cube where
  xPos : Int
  yPos : Int
  zPos : Int
  rot : Quaternion

/-- `new Cube(x, y, z)`: the orientation starts as `new Quaternion()`. -/
def Cube.new (x y z : Int) : Cube := ⟨x, y, z, {}⟩

/-- The coordinate triple of a piece. -/
def Cube.pos (c : Cube) : Int × Int × Int := (c.xPos, c.yPos, c.zPos)

/-- The module-level variables of `rubiks.js`. -/
structure State where
  cubes : List Cube := []
  selectedAxis : Int := 0
  selectedIndex : Int := 0
  turnAnimStartTime : ℝ := 0
  turnCounter : Nat := 0

/-- The state at load time, before `setup` runs. -/
def State.init : State := {}

/-- The pieces pushed by the three nested loops of `setup`, `z` outermost. -/
def setupCubes : List Cube :=
  (List.range cubeSize).flatMap fun z =>
    (List.range cubeSize).flatMap fun y =>
      (List.range cubeSize).filterMap fun x =>
        if z = 0 ∨ z = cubeSize - 1 ∨ x = 0 ∨ x = cubeSize - 1 ∨ y = 0 ∨ y = cubeSize - 1
        then some (Cube.new x y z) else none

/-- `setup()`: pushes the boundary pieces onto `cubes`. -/
def setup (st : State) : State := { st with cubes := st.cubes ++ setupCubes }

/-- `isCubeSelected(c)`: `[xPos, yPos, zPos][selectedAxis] === selectedIndex`;
an index outside `0..2` reads `undefined`, which equals no number. -/
def isCubeSelected (st : State) (c : Cube) : Bool :=
  if st.selectedAxis = 0 then decide (c.xPos = st.selectedIndex)
  else if st.selectedAxis = 1 then decide (c.yPos = st.selectedIndex)
  else if st.selectedAxis = 2 then decide (c.zPos = st.selectedIndex)
  else false

/-- The local function `rotCoords` of `applyAllRotations`. -/
def rotCoords (x y : Int) : Int × Int := (((cubeSize : Int) - 1) - y, x)

/-- The body of the `forEach` callback: the `switch` on `selectedAxis`. -/
noncomputable def turnCube (axis : Int) (c : Cube) : Cube :=
  if axis = 0 then
    { c with yPos := (rotCoords c.yPos c.zPos).1, zPos := (rotCoords c.yPos c.zPos).2,
             rot := Quaternion.mult xQuat c.rot }
  else if axis = 1 then
    { c with zPos := (rotCoords c.zPos c.xPos).1, xPos := (rotCoords c.zPos c.xPos).2,
             rot := Quaternion.mult yQuat c.rot }
  else if axis = 2 then
    { c with xPos := (rotCoords c.xPos c.yPos).1, yPos := (rotCoords c.xPos c.yPos).2,
             rot := Quaternion.mult zQuat c.rot }
  else c

/-- One pass of `selectedCubes.forEach`: `sel` marks the pieces that were put
in `selectedCubes` by the `filter` before the loop. -/
noncomputable def forEachSelected (axis : Int) (sel : List Bool) (cubes : List Cube) :
    List Cube :=
  List.zipWith (fun b c => if b then turnCube axis c else c) sel cubes

/-- The `while (turnCounter > 0)` loop, run for the given count. -/
noncomputable def turnLoop (axis : Int) (sel : List Bool) : Nat → List Cube → List Cube
  | 0, cubes => cubes
  | n + 1, cubes => turnLoop axis sel n (forEachSelected axis sel cubes)

/-- `applyAllRotations()`. -/
noncomputable def applyAllRotations (st : State) : State :=
  let selectedCubes := st.cubes.map (isCubeSelected st)
  { st with cubes := turnLoop st.selectedAxis selectedCubes st.turnCounter st.cubes,
            turnCounter := 0 }

/-! ## Input -/

/-- The values of `keyCode` that `keyPressed` distinguishes. -/
inductive Key where
  | DOWN_ARROW
  | UP_ARROW
  | RIGHT_ARROW
  | LEFT_ARROW
  | space
  | other

/-- `keyPressed()`; `now` is the value `millis()` would return. -/
noncomputable def keyPressed (key : Key) (now : ℝ) (st : State) : State :=
  match key with
  | .DOWN_ARROW =>
    let st1 := applyAllRotations st
    { st1 with selectedIndex := (st1.selectedIndex + 1) % (cubeSize : Int) }
  | .UP_ARROW =>
    let st1 := applyAllRotations st
    let idx := st1.selectedIndex - 1
    { st1 with selectedIndex := if idx < 0 then (cubeSize : Int) - 1 else idx }
  | .RIGHT_ARROW =>
    let st1 := applyAllRotations st
    let ax := st1.selectedAxis - 1
    { st1 with selectedAxis := if ax < 0 then 2 else ax }
  | .LEFT_ARROW =>
    let st1 := applyAllRotations st
    { st1 with selectedAxis := (st1.selectedAxis + 1) % 3 }
  | .space =>
    let st1 := if st.turnCounter = 0 then { st with turnAnimStartTime := now } else st
    { st1 with turnCounter := st1.turnCounter + 1 }
  | .other => st

/-! ## Solved check -/

/-- The JavaScript remainder `a % b` on reals: the quotient is truncated
towards zero. -/
noncomputable def jsRem (a b : ℝ) : ℝ :=
  a - b * (if 0 ≤ a / b then (⌊a / b⌋ : ℝ) else (⌈a / b⌉ : ℝ))

/-- The loop variables of `isRCubeSolved`. -/
structure SolvedLoop where
  test : Option Vector := none
  testAngle : ℝ := 0
  ans : Bool := true

/-- One iteration of the `for (const c of cubes)` loop of `isRCubeSolved`. -/
noncomputable def solvedStep (s : SolvedLoop) (c : Cube) : SolvedLoop :=
  let aa := c.rot.axisAngle
  let angle := jsRem aa.angle TWO_PI
  let axis := aa.axis.normalize
  match s.test with
  | none => { s with test := some axis, testAngle := angle }
  | some test =>
    let same := decide (test.x = axis.x) && decide (test.y = axis.y) && decide (test.z = axis.z)
    let sameAngle := decide (angle - s.testAngle < 0.01)
    if !(same && sameAngle) then { s with ans := false } else s

/-- `isRCubeSolved()`. -/
noncomputable def isRCubeSolved (st : State) : Bool :=
  (st.cubes.foldl solvedStep {}).ans

/-! ## Animation -/

/-- The p5 transform that `rotateAnim` issues for the frame. -/
inductive DrawCall where
  | rotateX (angle : ℝ)
  | rotateY (angle : ℝ)
  | rotateZ (angle : ℝ)

/-- `rotateAnim()`; `now` is the value `millis()` would return. The result is
the new state and the transform issued, if any. Indexing
`[rotateX, rotateY, rotateZ]` outside `0..2` yields `undefined`, and calling it
throws: that is `none`. -/
noncomputable def rotateAnim (now : ℝ) (st : State) : Option (State × Option DrawCall) :=
  let elapsedTurnTime := now - st.turnAnimStartTime
  if elapsedTurnTime ≥ (st.turnCounter : ℝ) * qTurnTime then
    some (applyAllRotations st, none)
  else
    let turnAmount := elapsedTurnTime / qTurnTime * HALF_PI
    if st.selectedAxis = 0 then some (st, some (.rotateX turnAmount))
    else if st.selectedAxis = 1 then some (st, some (.rotateY turnAmount))
    else if st.selectedAxis = 2 then some (st, some (.rotateZ turnAmount))
    else none

/-! ## Scramble -/

/-- One iteration of the loop of `scrambleRCube`; `r1`, `r2`, `r3` are the
three values returned by `Math.random()`. -/
noncomputable def scrambleStep (r1 r2 r3 : ℝ) (st : State) : State :=
  applyAllRotations
    { st with selectedAxis := ⌊r1 * 4⌋,
              selectedIndex := ⌊r2 * (cubeSize : ℝ) + 1⌋,
              turnCounter := ⌊r3 * 4⌋.toNat }

/-- The `for` loop of `scrambleRCube`: `n` iterations remain and `k` calls of
`Math.random()` were made so far; `rand k` is the value of call number `k`. -/
noncomputable def scrambleLoop (rand : Nat → ℝ) : Nat → Nat → State → State
  | 0, _, st => st
  | n + 1, k, st =>
    scrambleLoop rand n (k + 3) (scrambleStep (rand k) (rand (k + 1)) (rand (k + 2)) st)

/-- `scrambleRCube(n)` with the stream of random values `rand`. -/
noncomputable def scrambleRCube (n : Nat) (rand : Nat → ℝ) (st : State) : State :=
  scrambleLoop rand n 0 st

/-! ## The `Math` functions on doubles -/

/-- The functions of `Math` that the class `Quaternion` calls. -/
structure MathFns where
  sin : ℝ → ℝ
  cos : ℝ → ℝ
  acos : ℝ → ℝ

/-- The exact functions, with which `fromAxisAngle` and `axisAngle` are
written above. -/
noncomputable def exactMath : MathFns := ⟨Real.sin, Real.cos, Real.arccos⟩

/-- The nearest double of a real: 53 significant bits. The exponent range
(overflow, subnormals) is not modelled and a tie is rounded away from zero. -/
noncomputable def roundDouble (x : ℝ) : ℝ :=
  (round (x / (2 : ℝ) ^ (Int.log 2 |x| - 52)) : ℝ) * (2 : ℝ) ^ (Int.log 2 |x| - 52)

/-- The functions of `Math` on doubles: the exact value, rounded to the
nearest double. -/
noncomputable def doubleMath : MathFns :=
  ⟨fun x => roundDouble (Real.sin x), fun x => roundDouble (Real.cos x),
   fun x => roundDouble (Real.arccos x)⟩

/-- `Quaternion.fromAxisAngle([x, y, z], angle)`, with the functions of `Math`
as a parameter. -/
noncomputable def Quaternion.fromAxisAngleWith (M : MathFns) (axis : ℝ × ℝ × ℝ)
    (angle : ℝ) : Quaternion :=
  let h := angle / 2
  let s := M.sin h
  ⟨M.cos h, axis.1 * s, axis.2.1 * s, axis.2.2 * s⟩

/-- `q.axisAngle()`, with the functions of `Math` as a parameter. -/
noncomputable def Quaternion.axisAngleWith (M : MathFns) (q : Quaternion) : AxisAngle :=
  let angle := 2 * M.acos q.w
  let s := M.sin (angle / 2)
  let axis := createVector 1 0 0
  if s ≠ 0 then ⟨⟨q.i / s, q.j / s, q.k / s⟩, angle⟩ else ⟨axis, angle⟩

/-- The double `Math.PI`, `0x400921FB54442D18`. -/
noncomputable def MATH_PI : ℝ := 884279719003555 / 281474976710656

/-! ## Auxiliary definitions used in the statements -/

/-- The fresh lattice: `setup()` run at load time. -/
def fresh : State := setup State.init

/-- The state in which layer `idx` of `axis` is selected and `n` quarter turns
are pending on it. -/
def State.queued (st : State) (axis idx : Int) (n : Nat) : State :=
  { st with selectedAxis := axis, selectedIndex := idx, turnCounter := n }

/-- The coordinate part of one quarter turn of layer `idx` of `axis`, on a
coordinate triple: the triple is rotated when it lies in the layer. -/
def stepPos (axis idx : Int) (p : Int × Int × Int) : Int × Int × Int :=
  if axis = 0 then
    if p.1 = idx then (p.1, (rotCoords p.2.1 p.2.2).1, (rotCoords p.2.1 p.2.2).2) else p
  else if axis = 1 then
    if p.2.1 = idx then ((rotCoords p.2.2 p.1).2, p.2.1, (rotCoords p.2.2 p.1).1) else p
  else if axis = 2 then
    if p.2.2 = idx then ((rotCoords p.1 p.2.1).1, (rotCoords p.1 p.2.1).2, p.2.2) else p
  else p

/-- The commits of a list of turns `(axis, layer, count)`, in order. -/
noncomputable def commitTurns (turns : List (Int × Int × Nat)) (st : State) : State :=
  turns.foldl (fun s t => applyAllRotations (s.queued t.1 t.2.1 t.2.2)) st

/-- The Hamilton product in the words of the specification: scalar part
`w1*w2 - v1.v2`, vector part `w1*v2 + w2*v1 + v1 x v2`. -/
def hamiltonProduct (q1 q2 : Quaternion) : Quaternion :=
  ⟨q1.w * q2.w - (q1.i * q2.i + q1.j * q2.j + q1.k * q2.k),
   q1.w * q2.i + q2.w * q1.i + (q1.j * q2.k - q1.k * q2.j),
   q1.w * q2.j + q2.w * q1.j + (q1.k * q2.i - q1.i * q2.k),
   q1.w * q2.k + q2.w * q1.k + (q1.i * q2.j - q1.j * q2.i)⟩

/-- The quaternion of Mathlib with the same four components. -/
def toHamilton (q : Quaternion) : QuaternionAlgebra ℝ (-1) (-1) := ⟨q.w, q.i, q.j, q.k⟩

/-- The normalised axis that `isRCubeSolved` computes for a piece. -/
noncomputable def pieceAxis (c : Cube) : Vector := c.rot.axisAngle.axis.normalize

/-- The angle modulo `TWO_PI` that `isRCubeSolved` computes for a piece. -/
noncomputable def pieceAngle (c : Cube) : ℝ := jsRem c.rot.axisAngle.angle TWO_PI

/-- The angle passed to the p5 transform. -/
def DrawCall.angle : DrawCall → ℝ
  | .rotateX a => a
  | .rotateY a => a
  | .rotateZ a => a

/-- The conjugate of a quaternion, the inverse of a unit quaternion. -/
def Quaternion.conj (q : Quaternion) : Quaternion := ⟨q.w, -q.i, -q.j, -q.k⟩

/-! ## The commit step as a map over the pieces -/

theorem forEachSelected_map (axis : Int) (p : Cube → Bool) (g : Cube → Cube) (l : List Cube) :
    forEachSelected axis (l.map p) (l.map g)
      = l.map (fun c => if p c then turnCube axis (g c) else g c) := by
  induction l with
  | nil => rfl
  | cons a l ih =>
    simp only [forEachSelected] at ih
    simp [forEachSelected, ih]

theorem turnLoop_map (axis : Int) (p : Cube → Bool) (n : Nat) (g : Cube → Cube)
    (l : List Cube) :
    turnLoop axis (l.map p) n (l.map g)
      = l.map (fun c => if p c then (turnCube axis)^[n] (g c) else g c) := by
  induction n generalizing g with
  | zero => simp [turnLoop]
  | succ n ih =>
    rw [turnLoop, forEachSelected_map, ih]
    apply List.map_congr_left
    intro c _
    by_cases hp : p c <;> simp [hp]

/-- The commit applies the quarter turn `turnCounter` times to every piece
that is selected when the commit starts, and keeps the other pieces. -/
theorem applyAllRotations_cubes (st : State) :
    (applyAllRotations st).cubes
      = st.cubes.map (fun c =>
          if isCubeSelected st c then (turnCube st.selectedAxis)^[st.turnCounter] c else c) := by
  have h := turnLoop_map st.selectedAxis (isCubeSelected st) st.turnCounter id st.cubes
  simpa [applyAllRotations] using h

theorem setupCubes_pos :
    setupCubes.map Cube.pos =
      [(0,0,0),(1,0,0),(2,0,0),(0,1,0),(1,1,0),(2,1,0),(0,2,0),(1,2,0),(2,2,0),
       (0,0,1),(1,0,1),(2,0,1),(0,1,1),(2,1,1),(0,2,1),(1,2,1),(2,2,1),
       (0,0,2),(1,0,2),(2,0,2),(0,1,2),(1,1,2),(2,1,2),(0,2,2),(1,2,2),(2,2,2)] := by
  decide

theorem fresh_cubes : fresh.cubes = setupCubes := by
  simp [fresh, setup, State.init]

/-! ## C1: a single committed quarter turn -/

/-- C1: with one pending turn, `applyAllRotations` maps each piece of the
selected layer by the rule of its axis (X: `(y,z) ↦ (2-z, y)`, Y:
`(z,x) ↦ (2-x, z)`, Z: `(x,y) ↦ (2-y, x)`, the orientation left-multiplied by
the axis quaternion) and keeps every other piece; on the fresh lattice with
axis Z and layer 0 the piece at `(0,0,0)` moves to `(2,0,0)` and the piece at
`(2,0,0)` moves to `(2,2,0)`. -/
theorem applyAllRotations_single_turn (st : State) :
    (applyAllRotations { st with selectedAxis := 0, turnCounter := 1 }).cubes
        = st.cubes.map (fun c =>
            if c.xPos = st.selectedIndex
            then ⟨c.xPos, 2 - c.zPos, c.yPos, Quaternion.mult xQuat c.rot⟩ else c)
    ∧ (applyAllRotations { st with selectedAxis := 1, turnCounter := 1 }).cubes
        = st.cubes.map (fun c =>
            if c.yPos = st.selectedIndex
            then ⟨c.zPos, c.yPos, 2 - c.xPos, Quaternion.mult yQuat c.rot⟩ else c)
    ∧ (applyAllRotations { st with selectedAxis := 2, turnCounter := 1 }).cubes
        = st.cubes.map (fun c =>
            if c.zPos = st.selectedIndex
            then ⟨2 - c.yPos, c.xPos, c.zPos, Quaternion.mult zQuat c.rot⟩ else c)
    ∧ (∀ (n : Nat) (c : Cube), fresh.cubes[n]? = some c →
        (c.pos = (0, 0, 0) →
          ((applyAllRotations (fresh.queued 2 0 1)).cubes[n]?).map Cube.pos = some (2, 0, 0))
        ∧ (c.pos = (2, 0, 0) →
          ((applyAllRotations (fresh.queued 2 0 1)).cubes[n]?).map Cube.pos = some (2, 2, 0)))
    ∧ (fresh.cubes[0]?).map Cube.pos = some (0, 0, 0)
    ∧ (fresh.cubes[2]?).map Cube.pos = some (2, 0, 0) := by
  refine ⟨?_, ?_, ?_, ?_, ?_, ?_⟩
  · rw [applyAllRotations_cubes]
    apply List.map_congr_left
    intro c _
    by_cases h : c.xPos = st.selectedIndex <;>
      simp [isCubeSelected, turnCube, rotCoords, cubeSize, h]
  · rw [applyAllRotations_cubes]
    apply List.map_congr_left
    intro c _
    by_cases h : c.yPos = st.selectedIndex <;>
      simp [isCubeSelected, turnCube, rotCoords, cubeSize, h]
  · rw [applyAllRotations_cubes]
    apply List.map_congr_left
    intro c _
    by_cases h : c.zPos = st.selectedIndex <;>
      simp [isCubeSelected, turnCube, rotCoords, cubeSize, h]
  · intro n c hn
    have hq : (fresh.queued 2 0 1).cubes[n]? = some c := hn
    rw [applyAllRotations_cubes]
    simp only [List.getElem?_map, hq, Option.map_some']
    constructor
    · intro hc
      simp only [Cube.pos, Prod.mk.injEq] at hc
      simp [State.queued, isCubeSelected, turnCube, rotCoords, cubeSize, Cube.pos, hc]
    · intro hc
      simp only [Cube.pos, Prod.mk.injEq] at hc
      simp [State.queued, isCubeSelected, turnCube, rotCoords, cubeSize, Cube.pos, hc]
  · rw [← List.getElem?_map, fresh_cubes, setupCubes_pos]; rfl
  · rw [← List.getElem?_map, fresh_cubes, setupCubes_pos]; rfl

/-! ## C2: layer conservation -/

theorem turnCube_selected (st : State) (c : Cube) :
    isCubeSelected st (turnCube st.selectedAxis c) = isCubeSelected st c := by
  unfold isCubeSelected turnCube
  by_cases h0 : st.selectedAxis = 0
  · simp [h0]
  · by_cases h1 : st.selectedAxis = 1
    · simp [h1]
    · by_cases h2 : st.selectedAxis = 2
      · simp [h2]
      · simp [h0, h1, h2]

theorem turnCube_pos (st : State) (c : Cube) (h : isCubeSelected st c = true) :
    (turnCube st.selectedAxis c).pos = stepPos st.selectedAxis st.selectedIndex c.pos := by
  unfold isCubeSelected at h
  unfold turnCube stepPos Cube.pos
  by_cases h0 : st.selectedAxis = 0
  · simp [h0] at h ⊢; simp [h]
  · by_cases h1 : st.selectedAxis = 1
    · simp [h1] at h ⊢; simp [h]
    · by_cases h2 : st.selectedAxis = 2
      · simp [h2] at h ⊢; simp [h]
      · simp [h0, h1, h2]

theorem stepPos_unselected (st : State) (c : Cube) (h : isCubeSelected st c = false) :
    stepPos st.selectedAxis st.selectedIndex c.pos = c.pos := by
  unfold isCubeSelected at h
  unfold stepPos Cube.pos
  by_cases h0 : st.selectedAxis = 0
  · simp [h0] at h ⊢; simp [h]
  · by_cases h1 : st.selectedAxis = 1
    · simp [h1] at h ⊢; simp [h]
    · by_cases h2 : st.selectedAxis = 2
      · simp [h2] at h ⊢; simp [h]
      · simp [h0, h1, h2]

theorem iterate_turnCube_pos (st : State) (n : Nat) (c : Cube) :
    (if isCubeSelected st c then (turnCube st.selectedAxis)^[n] c else c).pos
      = (stepPos st.selectedAxis st.selectedIndex)^[n] c.pos := by
  induction n generalizing c with
  | zero => simp
  | succ n ih =>
    by_cases h : isCubeSelected st c = true
    · have h1 : isCubeSelected st (turnCube st.selectedAxis c) = true := by
        rw [turnCube_selected]; exact h
      have := ih (turnCube st.selectedAxis c)
      simp only [h1, if_true] at this
      simp only [h, if_true, Function.iterate_succ, Function.comp_apply]
      rw [this, turnCube_pos st c h]
    · have hf : isCubeSelected st c = false := by simpa using h
      have := ih c
      simp only [hf] at this
      simp only [hf, Function.iterate_succ, Function.comp_apply, stepPos_unselected st c hf]
      exact this

/-- The coordinates after a commit are the coordinates before it, each moved
by `turnCounter` quarter turns of the selected layer. -/
theorem applyAllRotations_pos (st : State) :
    (applyAllRotations st).cubes.map Cube.pos
      = (st.cubes.map Cube.pos).map ((stepPos st.selectedAxis st.selectedIndex)^[st.turnCounter]) := by
  rw [applyAllRotations_cubes, List.map_map, List.map_map]
  apply List.map_congr_left
  intro c _
  exact iterate_turnCube_pos st st.turnCounter c

theorem stepPos_perm_lattice (axis idx : Int) (ha : axis = 0 ∨ axis = 1 ∨ axis = 2)
    (hi : 0 ≤ idx ∧ idx ≤ 2) :
    ((setupCubes.map Cube.pos).map (stepPos axis idx)).Perm (setupCubes.map Cube.pos) := by
  rw [setupCubes_pos]
  have hidx : idx = 0 ∨ idx = 1 ∨ idx = 2 := by omega
  rcases ha with rfl | rfl | rfl <;> rcases hidx with rfl | rfl | rfl <;> decide

theorem iterate_stepPos_perm (axis idx : Int) (ha : axis = 0 ∨ axis = 1 ∨ axis = 2)
    (hi : 0 ≤ idx ∧ idx ≤ 2) (n : Nat) (l : List (Int × Int × Int))
    (hl : l.Perm (setupCubes.map Cube.pos)) :
    (l.map ((stepPos axis idx)^[n])).Perm (setupCubes.map Cube.pos) := by
  induction n generalizing l with
  | zero => simpa using hl
  | succ n ih =>
    have h1 : (l.map (stepPos axis idx)).Perm (setupCubes.map Cube.pos) :=
      (hl.map _).trans (stepPos_perm_lattice axis idx ha hi)
    have := ih _ h1
    simpa [List.map_map, Function.iterate_succ] using this

theorem commitTurns_perm (turns : List (Int × Int × Nat)) (st : State)
    (hst : (st.cubes.map Cube.pos).Perm (setupCubes.map Cube.pos))
    (hv : ∀ t ∈ turns, (t.1 = 0 ∨ t.1 = 1 ∨ t.1 = 2) ∧ 0 ≤ t.2.1 ∧ t.2.1 ≤ 2) :
    ((commitTurns turns st).cubes.map Cube.pos).Perm (setupCubes.map Cube.pos) := by
  induction turns generalizing st with
  | nil => simpa [commitTurns] using hst
  | cons t ts ih =>
    have ht := hv t (List.mem_cons_self _ _)
    have hstep : ((applyAllRotations (st.queued t.1 t.2.1 t.2.2)).cubes.map Cube.pos).Perm
        (setupCubes.map Cube.pos) := by
      rw [applyAllRotations_pos]
      exact iterate_stepPos_perm t.1 t.2.1 ht.1 ht.2 t.2.2 _ hst
    have := ih (applyAllRotations (st.queued t.1 t.2.1 t.2.2)) hstep
      (fun u hu => hv u (List.mem_cons_of_mem _ hu))
    simpa [commitTurns] using this

/-- C2 (layer conservation): after any sequence of committed turns on the
fresh lattice, each on a valid layer and with any count, the coordinate
triples of the pieces are a rearrangement of those built by `setup`; they are
pairwise distinct, lie in `[0,2]^3` and none is the interior `(1,1,1)`. A
single commit is the sequence of length one. -/
theorem layer_conservation (turns : List (Int × Int × Nat))
    (hv : ∀ t ∈ turns, (t.1 = 0 ∨ t.1 = 1 ∨ t.1 = 2) ∧ 0 ≤ t.2.1 ∧ t.2.1 ≤ 2) :
    ((commitTurns turns fresh).cubes.map Cube.pos).Perm (fresh.cubes.map Cube.pos)
    ∧ ((commitTurns turns fresh).cubes.map Cube.pos).Nodup
    ∧ ∀ p ∈ (commitTurns turns fresh).cubes.map Cube.pos,
        (0 ≤ p.1 ∧ p.1 ≤ 2) ∧ (0 ≤ p.2.1 ∧ p.2.1 ≤ 2) ∧ (0 ≤ p.2.2 ∧ p.2.2 ≤ 2)
          ∧ p ≠ (1, 1, 1) := by
  have hperm := commitTurns_perm turns fresh (by rw [fresh_cubes]) hv
  refine ⟨by rw [fresh_cubes]; exact hperm, ?_, ?_⟩
  · rw [hperm.nodup_iff, setupCubes_pos]; decide
  · intro p hp
    rw [hperm.mem_iff, setupCubes_pos] at hp
    revert p
    decide

/-- Witness for C2: a quarter turn of Z layer 0, then three of X layer 2. -/
theorem layer_conservation_witness :
    ((commitTurns [(2, 0, 1), (0, 2, 3)] fresh).cubes.map Cube.pos).Perm
        (fresh.cubes.map Cube.pos)
    ∧ ((commitTurns [(2, 0, 1), (0, 2, 3)] fresh).cubes.map Cube.pos).Nodup
    ∧ ∀ p ∈ (commitTurns [(2, 0, 1), (0, 2, 3)] fresh).cubes.map Cube.pos,
        (0 ≤ p.1 ∧ p.1 ≤ 2) ∧ (0 ≤ p.2.1 ∧ p.2.1 ≤ 2) ∧ (0 ≤ p.2.2 ∧ p.2.2 ≤ 2)
          ∧ p ≠ (1, 1, 1) :=
  layer_conservation [(2, 0, 1), (0, 2, 3)] (by decide)

/-! ## C3: the coordinate rule is a four-cycle -/

/-- C3 (permutation cycle): four applications of `rotCoords` return every
integer pair to itself; one application fixes only the centre pair `(1,1)`,
so a quarter turn about any of the three axes changes the coordinates of
every piece whose pair in the plane of the layer is not `(1,1)`. -/
theorem rotCoords_cycle (x y : Int) :
    (fun p : Int × Int => rotCoords p.1 p.2)^[4] (x, y) = (x, y)
    ∧ (rotCoords x y = (x, y) ↔ (x, y) = (1, 1))
    ∧ ∀ c : Cube,
        ((c.yPos, c.zPos) ≠ (1, 1) → (turnCube 0 c).pos ≠ c.pos)
        ∧ ((c.zPos, c.xPos) ≠ (1, 1) → (turnCube 1 c).pos ≠ c.pos)
        ∧ ((c.xPos, c.yPos) ≠ (1, 1) → (turnCube 2 c).pos ≠ c.pos) := by
  refine ⟨?_, ?_, ?_⟩
  · simp only [Function.iterate_succ, Function.iterate_zero, Function.comp_apply, id_eq,
      rotCoords, cubeSize, Prod.mk.injEq]
    constructor <;> push_cast <;> ring
  · simp only [rotCoords, cubeSize, Prod.mk.injEq]
    push_cast
    constructor
    · rintro ⟨h1, h2⟩; constructor <;> omega
    · rintro ⟨h1, h2⟩; constructor <;> omega
  · intro c
    simp only [turnCube, rotCoords, cubeSize, Cube.pos, ne_eq, Prod.mk.injEq]
    push_cast
    refine ⟨?_, ?_, ?_⟩
    · intro h hc; apply h; simp at hc; constructor <;> omega
    · intro h hc; apply h; simp at hc; constructor <;> omega
    · intro h hc; apply h; simp at hc; constructor <;> omega

/-! ## The axis quaternions -/

theorem half_sqrt_two_sq : (√2 / 2 : ℝ) * (√2 / 2) = 1 / 2 := by
  have h : (√2 : ℝ) * √2 = 2 := Real.mul_self_sqrt (by norm_num)
  linear_combination (1 / 4) * h

theorem quarter_angle : HALF_PI / 2 = Real.pi / 4 := by
  unfold HALF_PI; ring

theorem xQuat_eq : xQuat = ⟨√2 / 2, √2 / 2, 0, 0⟩ := by
  simp [xQuat, Quaternion.fromAxisAngle, quarter_angle]

theorem yQuat_eq : yQuat = ⟨√2 / 2, 0, √2 / 2, 0⟩ := by
  simp [yQuat, Quaternion.fromAxisAngle, quarter_angle]

theorem zQuat_eq : zQuat = ⟨√2 / 2, 0, 0, √2 / 2⟩ := by
  simp [zQuat, Quaternion.fromAxisAngle, quarter_angle]

/-- The components of `Quaternion.mult`, written out. -/
theorem mult_components (q1 q2 : Quaternion) :
    Quaternion.mult q1 q2
      = ⟨q1.w * q2.w - (q1.i * q2.i + q1.j * q2.j + q1.k * q2.k),
         q2.i * q1.w + q1.i * q2.w + (q1.j * q2.k - q1.k * q2.j),
         q2.j * q1.w + q1.j * q2.w + (q1.k * q2.i - q1.i * q2.k),
         q2.k * q1.w + q1.k * q2.w + (q1.i * q2.j - q1.j * q2.i)⟩ := by
  simp [Quaternion.mult, createVector, Vector.mult, Vector.add, Vector.cross, Vector.dot]

theorem xQuat_mult_twice (r : Quaternion) :
    Quaternion.mult xQuat (Quaternion.mult xQuat r) = ⟨-r.i, r.w, -r.k, r.j⟩ := by
  have h := half_sqrt_two_sq
  rw [xQuat_eq, mult_components, mult_components]
  ext <;> simp only
  · linear_combination (-2 * r.i) * h
  · linear_combination (2 * r.w) * h
  · linear_combination (-2 * r.k) * h
  · linear_combination (2 * r.j) * h

theorem yQuat_mult_twice (r : Quaternion) :
    Quaternion.mult yQuat (Quaternion.mult yQuat r) = ⟨-r.j, r.k, r.w, -r.i⟩ := by
  have h := half_sqrt_two_sq
  rw [yQuat_eq, mult_components, mult_components]
  ext <;> simp only
  · linear_combination (-2 * r.j) * h
  · linear_combination (2 * r.k) * h
  · linear_combination (2 * r.w) * h
  · linear_combination (-2 * r.i) * h

theorem zQuat_mult_twice (r : Quaternion) :
    Quaternion.mult zQuat (Quaternion.mult zQuat r) = ⟨-r.k, -r.j, r.i, r.w⟩ := by
  have h := half_sqrt_two_sq
  rw [zQuat_eq, mult_components, mult_components]
  ext <;> simp only
  · linear_combination (-2 * r.k) * h
  · linear_combination (-2 * r.j) * h
  · linear_combination (2 * r.i) * h
  · linear_combination (2 * r.w) * h

/-! ## C4: four quarter turns of the orientation -/

/-- C4, as stated, fails: four left-multiplications of the identity
orientation by `xQuat` give `(-1,0,0,0)`, not the identity `(1,0,0,0)`. -/
theorem four_turns_identity_counterexample :
    Quaternion.mult xQuat (Quaternion.mult xQuat (Quaternion.mult xQuat
        (Quaternion.mult xQuat ⟨1, 0, 0, 0⟩))) = ⟨-1, 0, 0, 0⟩
    ∧ Quaternion.mult xQuat (Quaternion.mult xQuat (Quaternion.mult xQuat
        (Quaternion.mult xQuat ⟨1, 0, 0, 0⟩))) ≠ ⟨1, 0, 0, 0⟩ := by
  have h : Quaternion.mult xQuat (Quaternion.mult xQuat (Quaternion.mult xQuat
      (Quaternion.mult xQuat ⟨1, 0, 0, 0⟩))) = ⟨-1, 0, 0, 0⟩ := by
    rw [xQuat_mult_twice, xQuat_mult_twice]; simp
  refine ⟨h, ?_⟩
  rw [h]
  intro hc
  have hw := congrArg Quaternion.w hc
  norm_num at hw

/-- C4, amended: for each of `xQuat`, `yQuat`, `zQuat` and every orientation
`r`, four left-multiplications by the same axis quaternion give the negated
quaternion `-r`; from the identity orientation the result is `(-1,0,0,0)`. -/
theorem four_turns_negate (r : Quaternion) :
    Quaternion.mult xQuat (Quaternion.mult xQuat (Quaternion.mult xQuat
        (Quaternion.mult xQuat r))) = ⟨-r.w, -r.i, -r.j, -r.k⟩
    ∧ Quaternion.mult yQuat (Quaternion.mult yQuat (Quaternion.mult yQuat
        (Quaternion.mult yQuat r))) = ⟨-r.w, -r.i, -r.j, -r.k⟩
    ∧ Quaternion.mult zQuat (Quaternion.mult zQuat (Quaternion.mult zQuat
        (Quaternion.mult zQuat r))) = ⟨-r.w, -r.i, -r.j, -r.k⟩
    ∧ Quaternion.mult xQuat (Quaternion.mult xQuat (Quaternion.mult xQuat
        (Quaternion.mult xQuat ⟨1, 0, 0, 0⟩))) = ⟨-1, 0, 0, 0⟩
    ∧ Quaternion.mult yQuat (Quaternion.mult yQuat (Quaternion.mult yQuat
        (Quaternion.mult yQuat ⟨1, 0, 0, 0⟩))) = ⟨-1, 0, 0, 0⟩
    ∧ Quaternion.mult zQuat (Quaternion.mult zQuat (Quaternion.mult zQuat
        (Quaternion.mult zQuat ⟨1, 0, 0, 0⟩))) = ⟨-1, 0, 0, 0⟩ := by
  refine ⟨?_, ?_, ?_, ?_, ?_, ?_⟩
  · rw [xQuat_mult_twice, xQuat_mult_twice]
  · rw [yQuat_mult_twice, yQuat_mult_twice]
  · rw [zQuat_mult_twice, zQuat_mult_twice]
  · rw [xQuat_mult_twice, xQuat_mult_twice]; simp
  · rw [yQuat_mult_twice, yQuat_mult_twice]; simp
  · rw [zQuat_mult_twice, zQuat_mult_twice]; simp

/-! ## C5: `Quaternion.mult` is the Hamilton product -/

/-- C5: `Quaternion.mult q1 q2` is the Hamilton product `q1 * q2`, both as
written in the specification and as the product of Mathlib's quaternions;
it is not commutative, since `mult xQuat yQuat` and `mult yQuat xQuat` differ. -/
theorem mult_is_hamilton (q1 q2 : Quaternion) :
    Quaternion.mult q1 q2 = hamiltonProduct q1 q2
    ∧ toHamilton (Quaternion.mult q1 q2) = toHamilton q1 * toHamilton q2
    ∧ Quaternion.mult xQuat yQuat ≠ Quaternion.mult yQuat xQuat := by
  refine ⟨?_, ?_, ?_⟩
  · rw [mult_components]
    unfold hamiltonProduct
    ext <;> simp only <;> ring
  · rw [mult_components]
    unfold toHamilton
    rw [QuaternionAlgebra.mk_mul_mk]
    ext <;> simp only <;> ring
  · rw [xQuat_eq, yQuat_eq, mult_components, mult_components]
    intro hc
    have hk := congrArg Quaternion.k hc
    have h := half_sqrt_two_sq
    simp only at hk
    linarith

/-! ## The fresh lattice, piece by piece -/

theorem setupCubes_eq :
    setupCubes = [Cube.new 0 0 0, Cube.new 1 0 0, Cube.new 2 0 0, Cube.new 0 1 0,
       Cube.new 1 1 0, Cube.new 2 1 0, Cube.new 0 2 0, Cube.new 1 2 0,
       Cube.new 2 2 0, Cube.new 0 0 1, Cube.new 1 0 1, Cube.new 2 0 1,
       Cube.new 0 1 1, Cube.new 2 1 1, Cube.new 0 2 1, Cube.new 1 2 1,
       Cube.new 2 2 1, Cube.new 0 0 2, Cube.new 1 0 2, Cube.new 2 0 2,
       Cube.new 0 1 2, Cube.new 1 1 2, Cube.new 2 1 2, Cube.new 0 2 2,
       Cube.new 1 2 2, Cube.new 2 2 2] := by
  simp [setupCubes, cubeSize, List.range, List.range.loop]

theorem jsRem_of_lt (a b : ℝ) (ha : 0 ≤ a) (hab : a < b) : jsRem a b = a := by
  have hb : 0 < b := lt_of_le_of_lt ha hab
  have h0 : 0 ≤ a / b := div_nonneg ha hb.le
  have h1 : a / b < 1 := (div_lt_one hb).mpr hab
  have hf : ⌊a / b⌋ = 0 := by
    rw [Int.floor_eq_iff]; constructor <;> simp [h0, h1]
  simp [jsRem, h0, hf]

theorem axisAngle_identity : (⟨1, 0, 0, 0⟩ : Quaternion).axisAngle = ⟨⟨1, 0, 0⟩, 0⟩ := by
  simp [Quaternion.axisAngle, createVector, Real.arccos_one]

theorem normalize_unit_x : (⟨1, 0, 0⟩ : Vector).normalize = ⟨1, 0, 0⟩ := by
  simp [Vector.normalize, Vector.mag, Vector.mult]

theorem sqrt_two_half_ne : (√2 / 2 : ℝ) ≠ 0 := by
  have := half_sqrt_two_sq
  intro h
  rw [h] at this
  norm_num at this

theorem arccos_half_sqrt_two : Real.arccos (√2 / 2) = Real.pi / 4 := by
  rw [← Real.cos_pi_div_four]
  apply Real.arccos_cos <;> linarith [Real.pi_pos]

theorem axisAngle_xQuat : xQuat.axisAngle = ⟨⟨1, 0, 0⟩, Real.pi / 2⟩ := by
  have h2 : Real.pi / 2 / 2 = Real.pi / 4 := by ring
  have h3 : 2 * (Real.pi / 4) = Real.pi / 2 := by ring
  rw [xQuat_eq]
  simp [Quaternion.axisAngle, createVector, arccos_half_sqrt_two, h2, Real.sin_pi_div_four,
    sqrt_two_half_ne, h3]

/-! ## What the solved check decides -/

theorem solvedStep_none (s : SolvedLoop) (hs : s.test = none) (c : Cube) :
    solvedStep s c = { s with test := some (pieceAxis c), testAngle := pieceAngle c } := by
  simp [solvedStep, hs, pieceAxis, pieceAngle]

theorem solvedStep_some (s : SolvedLoop) (t : Vector) (hs : s.test = some t) (c : Cube) :
    (solvedStep s c).test = some t ∧ (solvedStep s c).testAngle = s.testAngle
    ∧ ((solvedStep s c).ans = true ↔
        s.ans = true ∧ t = pieceAxis c ∧ pieceAngle c - s.testAngle < 0.01) := by
  by_cases h : t = pieceAxis c ∧ pieceAngle c - s.testAngle < 0.01
  · have h1 := h.1
    have h2 := h.2
    rw [Vector.ext_iff] at h1
    simp only [pieceAxis, pieceAngle] at h1 h2
    simp [solvedStep, hs, pieceAxis, pieceAngle, h1, h2, Vector.ext_iff]
  · have h3 := h
    rw [Vector.ext_iff] at h3
    simp only [pieceAxis, pieceAngle] at h3
    have : ¬ (t.x = c.rot.axisAngle.axis.normalize.x ∧ t.y = c.rot.axisAngle.axis.normalize.y
        ∧ t.z = c.rot.axisAngle.axis.normalize.z
        ∧ jsRem c.rot.axisAngle.angle TWO_PI - s.testAngle < 0.01) := by
      intro hc; exact h3 ⟨⟨hc.1, hc.2.1, hc.2.2.1⟩, hc.2.2.2⟩
    have hb : (decide (t.x = c.rot.axisAngle.axis.normalize.x)
        && decide (t.y = c.rot.axisAngle.axis.normalize.y)
        && decide (t.z = c.rot.axisAngle.axis.normalize.z)
        && decide (jsRem c.rot.axisAngle.angle TWO_PI - s.testAngle < 0.01)) = false := by
      rw [Bool.eq_false_iff]
      intro hb
      simp only [Bool.and_eq_true, decide_eq_true_eq] at hb
      exact this ⟨hb.1.1.1, hb.1.1.2, hb.1.2, hb.2⟩
    unfold solvedStep
    simp only [hs, hb]
    simp [h]

theorem foldl_solvedStep_some (l : List Cube) (s : SolvedLoop) (t : Vector)
    (hs : s.test = some t) :
    ((l.foldl solvedStep s).ans = true ↔
      s.ans = true ∧ ∀ d ∈ l, t = pieceAxis d ∧ pieceAngle d - s.testAngle < 0.01) := by
  induction l generalizing s with
  | nil => simp
  | cons c l ih =>
    obtain ⟨h1, h2, h3⟩ := solvedStep_some s t hs c
    rw [List.foldl_cons, ih (solvedStep s c) h1, h3, h2]
    simp only [List.mem_cons, forall_eq_or_imp]
    tauto

/-- What `isRCubeSolved` decides: every piece after the first has the
normalised axis of the first, and its angle exceeds the first's by less than
`0.01`. -/
theorem isRCubeSolved_cons (st : State) (c : Cube) (l : List Cube) (h : st.cubes = c :: l) :
    (isRCubeSolved st = true ↔
      ∀ d ∈ l, pieceAxis c = pieceAxis d ∧ pieceAngle d - pieceAngle c < 0.01) := by
  unfold isRCubeSolved
  rw [h, List.foldl_cons, solvedStep_none _ rfl,
    foldl_solvedStep_some l _ (pieceAxis c) rfl]
  simp

/-! ## C6: the angle test of the solved check -/

theorem setupCubes_rot (c : Cube) (hc : c ∈ setupCubes) : c.rot = ⟨1, 0, 0, 0⟩ := by
  rw [setupCubes_eq] at hc
  simp only [List.mem_cons, List.mem_singleton, List.not_mem_nil, or_false] at hc
  rcases hc with h | h | h | h | h | h | h | h | h | h | h | h | h | h | h | h | h | h | h | h
    | h | h | h | h | h | h <;> rw [h] <;> rfl

theorem mult_identity_right (q : Quaternion) : Quaternion.mult q ⟨1, 0, 0, 0⟩ = q := by
  rw [mult_components]; ext <;> simp

theorem two_pi_pos : 0 < TWO_PI := by
  unfold TWO_PI; linarith [Real.pi_pos]

theorem pieceAxis_identity (c : Cube) (h : c.rot = ⟨1, 0, 0, 0⟩) :
    pieceAxis c = ⟨1, 0, 0⟩ ∧ pieceAngle c = 0 := by
  unfold pieceAxis pieceAngle
  rw [h, axisAngle_identity]
  exact ⟨normalize_unit_x, jsRem_of_lt 0 TWO_PI le_rfl two_pi_pos⟩

theorem pieceAxis_xQuat (c : Cube) (h : c.rot = xQuat) :
    pieceAxis c = ⟨1, 0, 0⟩ ∧ pieceAngle c = Real.pi / 2 := by
  unfold pieceAxis pieceAngle
  rw [h, axisAngle_xQuat]
  refine ⟨normalize_unit_x, jsRem_of_lt _ _ ?_ ?_⟩
  · linarith [Real.pi_pos]
  · unfold TWO_PI; linarith [Real.pi_pos]

/-- C6: on the fresh lattice, after one committed quarter turn of layer 0
about X, `isRCubeSolved` returns `true` although the first piece has angle
`pi/2` and the second piece has angle `0`: the test `angle - testAngle < 0.01`
is one-sided and accepts every smaller angle. -/
theorem isRCubeSolved_accepts_smaller_angle :
    isRCubeSolved (applyAllRotations (fresh.queued 0 0 1)) = true
    ∧ (applyAllRotations (fresh.queued 0 0 1)).cubes[0]? = some ⟨0, 2, 0, xQuat⟩
    ∧ (applyAllRotations (fresh.queued 0 0 1)).cubes[1]? = some ⟨1, 0, 0, ⟨1, 0, 0, 0⟩⟩
    ∧ jsRem xQuat.axisAngle.angle TWO_PI = Real.pi / 2
    ∧ jsRem (⟨1, 0, 0, 0⟩ : Quaternion).axisAngle.angle TWO_PI = 0
    ∧ ¬ |jsRem (⟨1, 0, 0, 0⟩ : Quaternion).axisAngle.angle TWO_PI
          - jsRem xQuat.axisAngle.angle TWO_PI| < 0.01 := by
  have hx := (pieceAxis_xQuat ⟨0, 2, 0, xQuat⟩ rfl).2
  have hi := (pieceAxis_identity ⟨1, 0, 0, ⟨1, 0, 0, 0⟩⟩ rfl).2
  simp only [pieceAngle] at hx hi
  have hcubes : (applyAllRotations (fresh.queued 0 0 1)).cubes
      = setupCubes.map (fun c => if c.xPos = 0 then turnCube 0 c else c) := by
    rw [applyAllRotations_cubes]
    simp [State.queued, fresh_cubes, isCubeSelected]
  refine ⟨?_, ?_, ?_, hx, hi, ?_⟩
  · have hsplit : (applyAllRotations (fresh.queued 0 0 1)).cubes
        = (⟨0, 2, 0, xQuat⟩ : Cube)
          :: setupCubes.tail.map (fun c => if c.xPos = 0 then turnCube 0 c else c) := by
      rw [hcubes]
      conv_lhs => rw [setupCubes_eq]
      rw [setupCubes_eq]
      simp [turnCube, rotCoords, cubeSize, Cube.new, mult_identity_right]
    rw [isRCubeSolved_cons _ _ _ hsplit]
    intro d hd
    rw [List.mem_map] at hd
    obtain ⟨e, he, rfl⟩ := hd
    have hrot := setupCubes_rot e (List.mem_of_mem_tail he)
    have h0 := pieceAxis_xQuat ⟨0, 2, 0, xQuat⟩ rfl
    by_cases hsel : e.xPos = 0
    · have hd := pieceAxis_xQuat (turnCube 0 e) (by simp [turnCube, hrot, mult_identity_right])
      simp only [hsel, if_true]
      rw [h0.1, h0.2, hd.1, hd.2]
      norm_num
    · have hd := pieceAxis_identity e hrot
      simp only [hsel, if_false]
      rw [h0.1, h0.2, hd.1, hd.2]
      refine ⟨rfl, ?_⟩
      have := Real.pi_pos
      norm_num
      linarith
  · rw [hcubes, setupCubes_eq]
    simp [turnCube, rotCoords, cubeSize, Cube.new, mult_identity_right]
  · rw [hcubes, setupCubes_eq]
    simp [Cube.new]
  · rw [hx, hi]
    have := Real.pi_gt_three
    rw [abs_lt]
    intro h
    norm_num at h
    linarith [h.1]

/-! ## C7: a second turn on another layer -/

theorem pieceAxis_z_ne (c : Cube) (hw1 : -1 < c.rot.w) (hw2 : c.rot.w < 1)
    (hk : c.rot.k ≠ 0) : (pieceAxis c).z ≠ 0 := by
  have hhalf : 2 * Real.arccos c.rot.w / 2 = Real.arccos c.rot.w := by ring
  have hpos : 0 < √(1 - c.rot.w ^ 2) := Real.sqrt_pos.mpr (by nlinarith)
  have hs : Real.sin (2 * Real.arccos c.rot.w / 2) ≠ 0 := by
    rw [hhalf, Real.sin_arccos]; exact hpos.ne'
  have hkz : c.rot.k / Real.sin (2 * Real.arccos c.rot.w / 2) ≠ 0 := div_ne_zero hk hs
  have haxis : c.rot.axisAngle.axis
      = ⟨c.rot.i / Real.sin (2 * Real.arccos c.rot.w / 2),
         c.rot.j / Real.sin (2 * Real.arccos c.rot.w / 2),
         c.rot.k / Real.sin (2 * Real.arccos c.rot.w / 2)⟩ := by
    simp only [Quaternion.axisAngle]
    rw [if_pos hs]
  have hmag : c.rot.axisAngle.axis.mag ≠ 0 := by
    rw [haxis]
    unfold Vector.mag
    apply (Real.sqrt_pos.mpr _).ne'
    have := mul_self_pos.mpr hkz
    simp only
    nlinarith [mul_self_nonneg (c.rot.i / Real.sin (2 * Real.arccos c.rot.w / 2)),
      mul_self_nonneg (c.rot.j / Real.sin (2 * Real.arccos c.rot.w / 2))]
  unfold pieceAxis Vector.normalize
  simp only [hmag, ne_eq, not_false_eq_true, if_true, Vector.mult]
  rw [haxis] at hmag ⊢
  exact mul_ne_zero hkz (one_div_ne_zero hmag)

theorem half_sqrt_two_bounds : -1 < (√2 / 2 : ℝ) ∧ (√2 / 2 : ℝ) < 1 := by
  have h := half_sqrt_two_sq
  have h0 : (0 : ℝ) ≤ √2 / 2 := by positivity
  constructor
  · linarith
  · nlinarith

theorem isCubeSelected_queued (st st1 : State) (a i : Int) (n n1 : Nat) (c : Cube) :
    isCubeSelected (st.queued a i n) c = isCubeSelected (st1.queued a i n1) c := rfl

theorem two_turns_cubes (a i : Int) :
    (applyAllRotations ((applyAllRotations (fresh.queued 2 0 1)).queued a i 1)).cubes
      = setupCubes.map (fun c =>
          if isCubeSelected (fresh.queued a i 1) (if c.zPos = 0 then turnCube 2 c else c)
          then turnCube a (if c.zPos = 0 then turnCube 2 c else c)
          else (if c.zPos = 0 then turnCube 2 c else c)) := by
  rw [applyAllRotations_cubes]
  have h1 : ((applyAllRotations (fresh.queued 2 0 1)).queued a i 1).cubes
      = setupCubes.map (fun c => if c.zPos = 0 then turnCube 2 c else c) := by
    show (applyAllRotations (fresh.queued 2 0 1)).cubes = _
    rw [applyAllRotations_cubes]
    simp [State.queued, fresh_cubes, isCubeSelected]
  rw [h1, List.map_map]
  apply List.map_congr_left
  intro c _
  simp only [Function.comp_apply]
  rw [isCubeSelected_queued _ fresh a i 1 1]
  rfl

theorem first_piece_after_two_turns (a i : Int) (ha : a = 0 ∨ a = 1 ∨ a = 2)
    (hne : ¬ (a = 2 ∧ i = 0)) (c : Cube)
    (hc : c = (if isCubeSelected (fresh.queued a i 1) ⟨2, 0, 0, zQuat⟩
                then turnCube a ⟨2, 0, 0, zQuat⟩ else ⟨2, 0, 0, zQuat⟩)) :
    -1 < c.rot.w ∧ c.rot.w < 1 ∧ c.rot.k ≠ 0 := by
  have hb := half_sqrt_two_bounds
  have hq := half_sqrt_two_sq
  have hz : (⟨2, 0, 0, zQuat⟩ : Cube).rot = ⟨√2 / 2, 0, 0, √2 / 2⟩ := zQuat_eq
  have hcase : c.rot = zQuat ∨ c.rot = Quaternion.mult xQuat zQuat
      ∨ c.rot = Quaternion.mult yQuat zQuat := by
    rw [hc]
    rcases ha with rfl | rfl | rfl
    · by_cases h : isCubeSelected (fresh.queued 0 i 1) ⟨2, 0, 0, zQuat⟩ = true
      · right; left; simp [h, turnCube]
      · left; simp [h]
    · by_cases h : isCubeSelected (fresh.queued 1 i 1) ⟨2, 0, 0, zQuat⟩ = true
      · right; right; simp [h, turnCube]
      · left; simp [h]
    · left
      have h : isCubeSelected (fresh.queued 2 i 1) ⟨2, 0, 0, zQuat⟩ = false := by
        simp only [isCubeSelected, State.queued]
        have : ¬ i = 0 := fun h => hne ⟨rfl, h⟩
        simp [eq_comm, this]
      simp [h]
  rcases hcase with h | h | h
  · rw [h, zQuat_eq]
    exact ⟨hb.1, hb.2, sqrt_two_half_ne⟩
  · rw [h, xQuat_eq, zQuat_eq, mult_components]
    simp only
    refine ⟨by nlinarith, by nlinarith, ?_⟩
    intro hk
    nlinarith
  · rw [h, yQuat_eq, zQuat_eq, mult_components]
    simp only
    refine ⟨by nlinarith, by nlinarith, ?_⟩
    intro hk
    nlinarith

theorem unsolved_of_untouched (a i : Int) (ha : a = 0 ∨ a = 1 ∨ a = 2)
    (hne : ¬ (a = 2 ∧ i = 0)) (e : Cube) (he : e ∈ setupCubes.tail) (hz : e.zPos ≠ 0)
    (hsel : isCubeSelected (fresh.queued a i 1) e = false) :
    isRCubeSolved
      (applyAllRotations ((applyAllRotations (fresh.queued 2 0 1)).queued a i 1)) = false := by
  have hsplit : (applyAllRotations ((applyAllRotations (fresh.queued 2 0 1)).queued a i 1)).cubes
      = (if isCubeSelected (fresh.queued a i 1) ⟨2, 0, 0, zQuat⟩
          then turnCube a ⟨2, 0, 0, zQuat⟩ else ⟨2, 0, 0, zQuat⟩)
        :: setupCubes.tail.map (fun c =>
          if isCubeSelected (fresh.queued a i 1) (if c.zPos = 0 then turnCube 2 c else c)
          then turnCube a (if c.zPos = 0 then turnCube 2 c else c)
          else (if c.zPos = 0 then turnCube 2 c else c)) := by
    rw [two_turns_cubes]
    conv_lhs => rw [setupCubes_eq]
    have hfirst : turnCube 2 (Cube.new 0 0 0) = ⟨2, 0, 0, zQuat⟩ := by
      simp [turnCube, rotCoords, cubeSize, Cube.new, mult_identity_right]
    simp only [List.map_cons, List.tail_cons, Cube.new, if_true] at hfirst ⊢
    rw [setupCubes_eq]
    simp only [List.tail_cons, List.map_cons, Cube.new, if_true, hfirst]
  rw [← Bool.not_eq_true, isRCubeSolved_cons _ _ _ hsplit]
  intro hall
  have hmem : e ∈ setupCubes.tail.map (fun c =>
      if isCubeSelected (fresh.queued a i 1) (if c.zPos = 0 then turnCube 2 c else c)
      then turnCube a (if c.zPos = 0 then turnCube 2 c else c)
      else (if c.zPos = 0 then turnCube 2 c else c)) := by
    rw [List.mem_map]
    exact ⟨e, he, by simp [hz, hsel]⟩
  have h1 := (hall e hmem).1
  have h2 := (pieceAxis_identity e (setupCubes_rot e (List.mem_of_mem_tail he))).1
  have h3 := pieceAxis_z_ne _ (first_piece_after_two_turns a i ha hne _ rfl).1
    (first_piece_after_two_turns a i ha hne _ rfl).2.1
    (first_piece_after_two_turns a i ha hne _ rfl).2.2
  rw [h1, h2] at h3
  exact h3 rfl

/-- C7: on the fresh lattice, after a committed quarter turn of Z layer 0 and
a second committed quarter turn of any other layer (axis in `{0,1,2}`, index
in `[0,2]`, not Z/0), `isRCubeSolved` returns `false`. -/
theorem second_turn_unsolved (a i : Int) (ha : a = 0 ∨ a = 1 ∨ a = 2)
    (hi : 0 ≤ i ∧ i ≤ 2) (hne : ¬ (a = 2 ∧ i = 0)) :
    isRCubeSolved
      (applyAllRotations ((applyAllRotations (fresh.queued 2 0 1)).queued a i 1)) = false := by
  have hidx : i = 0 ∨ i = 1 ∨ i = 2 := by omega
  have m1 : Cube.new 0 0 1 ∈ setupCubes.tail := by rw [setupCubes_eq]; simp
  have m2 : Cube.new 0 0 2 ∈ setupCubes.tail := by rw [setupCubes_eq]; simp
  have m3 : Cube.new 2 2 2 ∈ setupCubes.tail := by rw [setupCubes_eq]; simp
  rcases ha with rfl | rfl | rfl <;> rcases hidx with rfl | rfl | rfl
  · exact unsolved_of_untouched 0 0 (by simp) hne _ m3 (by simp [Cube.new])
      (by simp [isCubeSelected, State.queued, Cube.new])
  · exact unsolved_of_untouched 0 1 (by simp) hne _ m3 (by simp [Cube.new])
      (by simp [isCubeSelected, State.queued, Cube.new])
  · exact unsolved_of_untouched 0 2 (by simp) hne _ m2 (by simp [Cube.new])
      (by simp [isCubeSelected, State.queued, Cube.new])
  · exact unsolved_of_untouched 1 0 (by simp) hne _ m3 (by simp [Cube.new])
      (by simp [isCubeSelected, State.queued, Cube.new])
  · exact unsolved_of_untouched 1 1 (by simp) hne _ m3 (by simp [Cube.new])
      (by simp [isCubeSelected, State.queued, Cube.new])
  · exact unsolved_of_untouched 1 2 (by simp) hne _ m2 (by simp [Cube.new])
      (by simp [isCubeSelected, State.queued, Cube.new])
  · exact absurd ⟨rfl, rfl⟩ hne
  · exact unsolved_of_untouched 2 1 (by simp) hne _ m2 (by simp [Cube.new])
      (by simp [isCubeSelected, State.queued, Cube.new])
  · exact unsolved_of_untouched 2 2 (by simp) hne _ m1 (by simp [Cube.new])
      (by simp [isCubeSelected, State.queued, Cube.new])

/-- Witness for C7: the second turn is a quarter turn of X layer 2. -/
theorem second_turn_unsolved_witness :
    isRCubeSolved
      (applyAllRotations ((applyAllRotations (fresh.queued 2 0 1)).queued 0 2 1)) = false :=
  second_turn_unsolved 0 2 (by decide) (by decide) (by decide)

/-! ## C8: the selections made by `scrambleRCube` -/

theorem floor_three_quarters :
    ⌊(3 / 4 : ℝ) * 4⌋ = 3 ∧ ⌊(3 / 4 : ℝ) * (cubeSize : ℝ) + 1⌋ = 3 := by
  constructor
  · rw [Int.floor_eq_iff]; norm_num
  · rw [Int.floor_eq_iff]; norm_num [cubeSize]

/-- C8: when `Math.random()` returns `0.75`, one iteration of `scrambleRCube`
leaves `selectedAxis = 3` and `selectedIndex = 3`, neither of which names an
axis in `{0,1,2}` or a layer in `[0, cubeSize-1]`; the count chosen, `3`, is
in `[0,3]`. -/
theorem scrambleRCube_invalid_selection :
    (0 : ℝ) ≤ 3 / 4 ∧ (3 / 4 : ℝ) < 1
    ∧ (scrambleRCube 1 (fun _ => 3 / 4) fresh).selectedAxis = 3
    ∧ (scrambleRCube 1 (fun _ => 3 / 4) fresh).selectedIndex = 3
    ∧ ¬ ((scrambleRCube 1 (fun _ => 3 / 4) fresh).selectedAxis ∈ ({0, 1, 2} : Set Int))
    ∧ ¬ ((scrambleRCube 1 (fun _ => 3 / 4) fresh).selectedIndex ≤ (cubeSize : Int) - 1)
    ∧ ⌊(3 / 4 : ℝ) * 4⌋.toNat = 3 := by
  have hf := floor_three_quarters
  have ha : (scrambleRCube 1 (fun _ => 3 / 4) fresh).selectedAxis = 3 := by
    show ⌊(3 / 4 : ℝ) * 4⌋ = 3
    exact hf.1
  have hi : (scrambleRCube 1 (fun _ => 3 / 4) fresh).selectedIndex = 3 := by
    show ⌊(3 / 4 : ℝ) * (cubeSize : ℝ) + 1⌋ = 3
    exact hf.2
  refine ⟨by norm_num, by norm_num, ha, hi, ?_, ?_, ?_⟩
  · rw [ha]; simp
  · rw [hi]; simp [cubeSize]
  · rw [hf.1]; rfl

/-! ## C9: pending turns when the selection changes -/

theorem floor_tenth :
    ⌊(1 / 10 : ℝ) * 4⌋ = 0 ∧ ⌊(1 / 10 : ℝ) * (cubeSize : ℝ) + 1⌋ = 1 := by
  constructor
  · rw [Int.floor_eq_iff]; norm_num
  · rw [Int.floor_eq_iff]; norm_num [cubeSize]

theorem applyAllRotations_zero (st : State) (h : st.turnCounter = 0) :
    (applyAllRotations st).cubes = st.cubes := by
  rw [applyAllRotations_cubes, h]
  simp

/-- C9: the arrow keys commit the pending turns before they change the
selection, but `scrambleRCube` does not. With one turn queued on X layer 0 of
the fresh lattice and `Math.random()` returning `0.1`, `scrambleRCube(1)`
selects layer 1, empties the queue and leaves every piece as it was, whereas
the DOWN arrow in the same state turns the first piece to `(0,2,0)`. -/
theorem scrambleRCube_discards_pending_turn :
    (∀ (now : ℝ) (st : State),
        (keyPressed .DOWN_ARROW now st).cubes = (applyAllRotations st).cubes
        ∧ (keyPressed .UP_ARROW now st).cubes = (applyAllRotations st).cubes
        ∧ (keyPressed .RIGHT_ARROW now st).cubes = (applyAllRotations st).cubes
        ∧ (keyPressed .LEFT_ARROW now st).cubes = (applyAllRotations st).cubes)
    ∧ (keyPressed .space 0 fresh).turnCounter = 1
    ∧ (keyPressed .space 0 fresh).selectedAxis = 0
    ∧ (keyPressed .space 0 fresh).selectedIndex = 0
    ∧ (scrambleRCube 1 (fun _ => 1 / 10) (keyPressed .space 0 fresh)).selectedAxis = 0
    ∧ (scrambleRCube 1 (fun _ => 1 / 10) (keyPressed .space 0 fresh)).selectedIndex = 1
    ∧ (scrambleRCube 1 (fun _ => 1 / 10) (keyPressed .space 0 fresh)).turnCounter = 0
    ∧ (scrambleRCube 1 (fun _ => 1 / 10) (keyPressed .space 0 fresh)).cubes
        = (keyPressed .space 0 fresh).cubes
    ∧ (keyPressed .space 0 fresh).cubes[0]? = some ⟨0, 0, 0, ⟨1, 0, 0, 0⟩⟩
    ∧ (keyPressed .DOWN_ARROW 0 (keyPressed .space 0 fresh)).cubes[0]?
        = some ⟨0, 2, 0, xQuat⟩ := by
  have hf := floor_tenth
  refine ⟨fun now st => ⟨rfl, rfl, rfl, rfl⟩, rfl, rfl, rfl, ?_, ?_, rfl, ?_, ?_, ?_⟩
  · show ⌊(1 / 10 : ℝ) * 4⌋ = 0
    exact hf.1
  · show ⌊(1 / 10 : ℝ) * (cubeSize : ℝ) + 1⌋ = 1
    exact hf.2
  · show (applyAllRotations _).cubes = _
    have h0 : ⌊(1 / 10 : ℝ) * 4⌋.toNat = 0 := by rw [hf.1]; rfl
    rw [applyAllRotations_zero _ h0]
  · show setupCubes[0]? = _
    rw [setupCubes_eq]; rfl
  · show (applyAllRotations (keyPressed .space 0 fresh)).cubes[0]? = _
    rw [applyAllRotations_cubes]
    show (setupCubes.map _)[0]? = _
    rw [setupCubes_eq]
    simp [keyPressed, fresh, setup, State.init, isCubeSelected, turnCube, rotCoords, cubeSize,
      Cube.new, mult_identity_right]

/-! ## C10: the tick -/

/-- C10 (tick contract): in a state with pending turns and a valid axis (as
whenever `draw` calls it, since a piece is selected), `rotateAnim` commits all
pending turns, leaving `turnCounter = 0`, when the elapsed time is at least
`turnCounter * qTurnTime`; otherwise it issues the rotation of the selected
axis by `elapsed / qTurnTime * (pi/2)` and returns the state unchanged. -/
theorem rotateAnim_contract (now : ℝ) (st : State) (htc : 0 < st.turnCounter)
    (ha : st.selectedAxis = 0 ∨ st.selectedAxis = 1 ∨ st.selectedAxis = 2) :
    (now - st.turnAnimStartTime ≥ (st.turnCounter : ℝ) * qTurnTime →
        rotateAnim now st = some (applyAllRotations st, none)
        ∧ (applyAllRotations st).turnCounter = 0)
    ∧ (now - st.turnAnimStartTime < (st.turnCounter : ℝ) * qTurnTime →
        (st.selectedAxis = 0 → rotateAnim now st = some (st, some
          (.rotateX ((now - st.turnAnimStartTime) / qTurnTime * (Real.pi / 2)))))
        ∧ (st.selectedAxis = 1 → rotateAnim now st = some (st, some
          (.rotateY ((now - st.turnAnimStartTime) / qTurnTime * (Real.pi / 2)))))
        ∧ (st.selectedAxis = 2 → rotateAnim now st = some (st, some
          (.rotateZ ((now - st.turnAnimStartTime) / qTurnTime * (Real.pi / 2)))))
        ∧ ∃ call, rotateAnim now st = some (st, some call))
    ∧ ((rotateAnim now st).map (fun r => r.1.turnCounter) = some 0 ↔
        now - st.turnAnimStartTime ≥ (st.turnCounter : ℝ) * qTurnTime) := by
  refine ⟨?_, ?_, ?_⟩
  · intro h
    exact ⟨by simp [rotateAnim, h], rfl⟩
  · intro h
    have h1 : ¬ (now - st.turnAnimStartTime ≥ (st.turnCounter : ℝ) * qTurnTime) := not_le.mpr h
    refine ⟨?_, ?_, ?_, ?_⟩
    · intro h0; simp [rotateAnim, h1, h0, HALF_PI]
    · intro h0; simp [rotateAnim, h1, h0, HALF_PI]
    · intro h0; simp [rotateAnim, h1, h0, HALF_PI]
    · rcases ha with h0 | h0 | h0 <;> simp [rotateAnim, h1, h0]
  · by_cases h : now - st.turnAnimStartTime ≥ (st.turnCounter : ℝ) * qTurnTime
    · simp [rotateAnim, h, applyAllRotations]
    · have hne : st.turnCounter ≠ 0 := Nat.pos_iff_ne_zero.mp htc
      rcases ha with h0 | h0 | h0 <;> simp [rotateAnim, h, h0, hne]

/-- Witness for C10: one pending turn on the fresh lattice, 100 ms after it
was queued at time 0. -/
theorem rotateAnim_contract_witness :
    ((100 : ℝ) - (keyPressed .space 0 fresh).turnAnimStartTime
          ≥ ((keyPressed .space 0 fresh).turnCounter : ℝ) * qTurnTime →
        rotateAnim 100 (keyPressed .space 0 fresh)
          = some (applyAllRotations (keyPressed .space 0 fresh), none)
        ∧ (applyAllRotations (keyPressed .space 0 fresh)).turnCounter = 0)
    ∧ ((100 : ℝ) - (keyPressed .space 0 fresh).turnAnimStartTime
          < ((keyPressed .space 0 fresh).turnCounter : ℝ) * qTurnTime →
        ((keyPressed .space 0 fresh).selectedAxis = 0 →
          rotateAnim 100 (keyPressed .space 0 fresh) = some (keyPressed .space 0 fresh, some
            (.rotateX ((100 - (keyPressed .space 0 fresh).turnAnimStartTime) / qTurnTime
              * (Real.pi / 2)))))
        ∧ ((keyPressed .space 0 fresh).selectedAxis = 1 →
          rotateAnim 100 (keyPressed .space 0 fresh) = some (keyPressed .space 0 fresh, some
            (.rotateY ((100 - (keyPressed .space 0 fresh).turnAnimStartTime) / qTurnTime
              * (Real.pi / 2)))))
        ∧ ((keyPressed .space 0 fresh).selectedAxis = 2 →
          rotateAnim 100 (keyPressed .space 0 fresh) = some (keyPressed .space 0 fresh, some
            (.rotateZ ((100 - (keyPressed .space 0 fresh).turnAnimStartTime) / qTurnTime
              * (Real.pi / 2)))))
        ∧ ∃ call, rotateAnim 100 (keyPressed .space 0 fresh)
            = some (keyPressed .space 0 fresh, some call))
    ∧ ((rotateAnim 100 (keyPressed .space 0 fresh)).map (fun r => r.1.turnCounter) = some 0 ↔
        (100 : ℝ) - (keyPressed .space 0 fresh).turnAnimStartTime
          ≥ ((keyPressed .space 0 fresh).turnCounter : ℝ) * qTurnTime) :=
  rotateAnim_contract 100 (keyPressed .space 0 fresh) (by decide) (Or.inl rfl)

/-! ## C11: the animation angle of a single turn -/

/-- When `rotateAnim` issues a transform, the time elapsed is short of the
queued turns, the state is returned as it was, and the angle is
`elapsed / qTurnTime * (pi/2)`. -/
theorem rotateAnim_reports (now : ℝ) (st s : State) (call : DrawCall)
    (h : rotateAnim now st = some (s, some call)) :
    now - st.turnAnimStartTime < (st.turnCounter : ℝ) * qTurnTime ∧ s = st
    ∧ call.angle = (now - st.turnAnimStartTime) / qTurnTime * (Real.pi / 2) := by
  unfold rotateAnim at h
  by_cases hc : now - st.turnAnimStartTime ≥ (st.turnCounter : ℝ) * qTurnTime
  · simp [hc] at h
  · simp only [hc, if_false] at h
    refine ⟨not_le.mp hc, ?_⟩
    by_cases h0 : st.selectedAxis = 0
    · simp [h0] at h
      obtain ⟨hs, hcall⟩ := h
      subst hcall
      exact ⟨hs.symm, by simp [DrawCall.angle, HALF_PI]⟩
    · by_cases h1 : st.selectedAxis = 1
      · simp [h1] at h
        obtain ⟨hs, hcall⟩ := h
        subst hcall
        exact ⟨hs.symm, by simp [DrawCall.angle, HALF_PI]⟩
      · by_cases h2 : st.selectedAxis = 2
        · simp [h2] at h
          obtain ⟨hs, hcall⟩ := h
          subst hcall
          exact ⟨hs.symm, by simp [DrawCall.angle, HALF_PI]⟩
        · simp [h0, h1, h2] at h

theorem qTurnTime_pos : 0 < qTurnTime := by
  unfold qTurnTime; norm_num

/-- C11, as stated, fails: with one turn queued at time 0 on the fresh
lattice, `rotateAnim` at `elapsed = qTurnTime` reports no angle (it commits),
and whenever it does report an angle that angle is below `pi/2`. -/
theorem rotateAnim_never_reports_half_pi :
    (keyPressed .space 0 fresh).turnCounter = 1
    ∧ qTurnTime - (keyPressed .space 0 fresh).turnAnimStartTime = qTurnTime
    ∧ rotateAnim qTurnTime (keyPressed .space 0 fresh)
        = some (applyAllRotations (keyPressed .space 0 fresh), none)
    ∧ ∀ (now : ℝ) (s : State) (call : DrawCall),
        rotateAnim now (keyPressed .space 0 fresh) = some (s, some call) →
        call.angle < Real.pi / 2 := by
  have hstart : (keyPressed .space 0 fresh).turnAnimStartTime = 0 := by
    simp [keyPressed, fresh, setup, State.init]
  have htc : (keyPressed .space 0 fresh).turnCounter = 1 := rfl
  refine ⟨htc, by rw [hstart]; simp, ?_, ?_⟩
  · unfold rotateAnim
    rw [hstart, htc]
    simp
  · intro now s call h
    obtain ⟨h1, _, h3⟩ := rotateAnim_reports now _ s call h
    rw [htc] at h1
    rw [h3]
    have hq := qTurnTime_pos
    have hlt : (now - (keyPressed .space 0 fresh).turnAnimStartTime) / qTurnTime < 1 := by
      rw [div_lt_one hq]; simpa using h1
    have hpi := Real.pi_pos
    nlinarith

/-- C11, amended: with a single queued turn the angle reported by
`rotateAnim` is non-decreasing in time and stays below `pi/2`, the value its
formula takes at `elapsed = qTurnTime`; from `elapsed = qTurnTime` on no angle
is reported but the turn is committed: `turnCounter` is 0 and each piece of the
selected layer has been turned once, its orientation left-multiplied by the
quaternion of the axis, the other pieces being kept. -/
theorem rotateAnim_single_turn (st : State) (htc : st.turnCounter = 1) :
    (∀ (t1 t2 : ℝ) (s1 s2 : State) (c1 c2 : DrawCall), t1 ≤ t2 →
        rotateAnim t1 st = some (s1, some c1) → rotateAnim t2 st = some (s2, some c2) →
        c1.angle ≤ c2.angle)
    ∧ (∀ (now : ℝ) (s : State) (call : DrawCall),
        rotateAnim now st = some (s, some call) → call.angle < Real.pi / 2)
    ∧ qTurnTime / qTurnTime * HALF_PI = Real.pi / 2
    ∧ (∀ now : ℝ, now - st.turnAnimStartTime ≥ qTurnTime →
        rotateAnim now st = some (applyAllRotations st, none)
        ∧ (applyAllRotations st).turnCounter = 0
        ∧ (applyAllRotations st).cubes = st.cubes.map (fun c =>
            if isCubeSelected st c then turnCube st.selectedAxis c else c))
    ∧ (∀ c : Cube, (turnCube 0 c).rot = Quaternion.mult xQuat c.rot
        ∧ (turnCube 1 c).rot = Quaternion.mult yQuat c.rot
        ∧ (turnCube 2 c).rot = Quaternion.mult zQuat c.rot) := by
  have hq := qTurnTime_pos
  have hpi := Real.pi_pos
  refine ⟨?_, ?_, ?_, ?_, ?_⟩
  · intro t1 t2 s1 s2 c1 c2 ht h1 h2
    rw [(rotateAnim_reports t1 st s1 c1 h1).2.2, (rotateAnim_reports t2 st s2 c2 h2).2.2]
    have : (t1 - st.turnAnimStartTime) / qTurnTime ≤ (t2 - st.turnAnimStartTime) / qTurnTime :=
      div_le_div_of_nonneg_right (by linarith) hq.le
    nlinarith
  · intro now s call h
    obtain ⟨h1, _, h3⟩ := rotateAnim_reports now st s call h
    rw [htc] at h1
    rw [h3]
    have hlt : (now - st.turnAnimStartTime) / qTurnTime < 1 := by
      rw [div_lt_one hq]; simpa using h1
    nlinarith
  · rw [div_self hq.ne']; simp [HALF_PI]
  · intro now h
    refine ⟨?_, rfl, ?_⟩
    · unfold rotateAnim
      rw [htc]
      simp [h]
    · rw [applyAllRotations_cubes, htc]
      simp
  · intro c
    simp [turnCube]

/-- Witness for C11: one turn queued on the fresh lattice. -/
theorem rotateAnim_single_turn_witness :
    (∀ (t1 t2 : ℝ) (s1 s2 : State) (c1 c2 : DrawCall), t1 ≤ t2 →
        rotateAnim t1 (keyPressed .space 0 fresh) = some (s1, some c1) →
        rotateAnim t2 (keyPressed .space 0 fresh) = some (s2, some c2) →
        c1.angle ≤ c2.angle)
    ∧ (∀ (now : ℝ) (s : State) (call : DrawCall),
        rotateAnim now (keyPressed .space 0 fresh) = some (s, some call) →
        call.angle < Real.pi / 2)
    ∧ qTurnTime / qTurnTime * HALF_PI = Real.pi / 2
    ∧ (∀ now : ℝ, now - (keyPressed .space 0 fresh).turnAnimStartTime ≥ qTurnTime →
        rotateAnim now (keyPressed .space 0 fresh)
          = some (applyAllRotations (keyPressed .space 0 fresh), none)
        ∧ (applyAllRotations (keyPressed .space 0 fresh)).turnCounter = 0
        ∧ (applyAllRotations (keyPressed .space 0 fresh)).cubes
          = (keyPressed .space 0 fresh).cubes.map (fun c =>
              if isCubeSelected (keyPressed .space 0 fresh) c
              then turnCube (keyPressed .space 0 fresh).selectedAxis c else c))
    ∧ (∀ c : Cube, (turnCube 0 c).rot = Quaternion.mult xQuat c.rot
        ∧ (turnCube 1 c).rot = Quaternion.mult yQuat c.rot
        ∧ (turnCube 2 c).rot = Quaternion.mult zQuat c.rot) :=
  rotateAnim_single_turn (keyPressed .space 0 fresh) rfl

/-! ## C12: the flush -/

theorem applyAllRotations_of_zero (st : State) (h : st.turnCounter = 0) :
    applyAllRotations st = st := by
  obtain ⟨cubes, a, i, t, n⟩ := st
  simp only at h
  subst h
  simp [applyAllRotations, turnLoop]

/-- C12 (flush): after `applyAllRotations` the counter is 0; with the counter
already 0 it returns the state as it was (pieces, selection, start time and
counter); so a second call in a row changes nothing more. -/
theorem applyAllRotations_flush (st : State) :
    (applyAllRotations st).turnCounter = 0
    ∧ (st.turnCounter = 0 → applyAllRotations st = st)
    ∧ applyAllRotations (applyAllRotations st) = applyAllRotations st :=
  ⟨rfl, applyAllRotations_of_zero st, applyAllRotations_of_zero _ rfl⟩

/-! ## C13: the arrow keys -/

/-- C13 (selection wraparound): from a valid selection, DOWN sets the layer to
`(old+1) mod cubeSize`, UP to `(old-1) mod cubeSize`, LEFT sets the axis to
`(old+1) mod 3` and RIGHT to `(old-1) mod 3`; the results are in range, each
key undoes its opposite, and the counter is 0 afterwards. -/
theorem keyPressed_wraparound (now : ℝ) (st : State)
    (hi : 0 ≤ st.selectedIndex ∧ st.selectedIndex ≤ (cubeSize : Int) - 1)
    (ha : st.selectedAxis = 0 ∨ st.selectedAxis = 1 ∨ st.selectedAxis = 2) :
    ((keyPressed .DOWN_ARROW now st).selectedIndex = (st.selectedIndex + 1) % (cubeSize : Int)
      ∧ (keyPressed .UP_ARROW now st).selectedIndex = (st.selectedIndex - 1) % (cubeSize : Int)
      ∧ (keyPressed .LEFT_ARROW now st).selectedAxis = (st.selectedAxis + 1) % 3
      ∧ (keyPressed .RIGHT_ARROW now st).selectedAxis = (st.selectedAxis - 1) % 3)
    ∧ ((0 ≤ (keyPressed .DOWN_ARROW now st).selectedIndex
          ∧ (keyPressed .DOWN_ARROW now st).selectedIndex ≤ (cubeSize : Int) - 1)
      ∧ (0 ≤ (keyPressed .UP_ARROW now st).selectedIndex
          ∧ (keyPressed .UP_ARROW now st).selectedIndex ≤ (cubeSize : Int) - 1)
      ∧ (0 ≤ (keyPressed .LEFT_ARROW now st).selectedAxis
          ∧ (keyPressed .LEFT_ARROW now st).selectedAxis ≤ 2)
      ∧ (0 ≤ (keyPressed .RIGHT_ARROW now st).selectedAxis
          ∧ (keyPressed .RIGHT_ARROW now st).selectedAxis ≤ 2))
    ∧ ((keyPressed .UP_ARROW now (keyPressed .DOWN_ARROW now st)).selectedIndex
          = st.selectedIndex
      ∧ (keyPressed .DOWN_ARROW now (keyPressed .UP_ARROW now st)).selectedIndex
          = st.selectedIndex
      ∧ (keyPressed .RIGHT_ARROW now (keyPressed .LEFT_ARROW now st)).selectedAxis
          = st.selectedAxis
      ∧ (keyPressed .LEFT_ARROW now (keyPressed .RIGHT_ARROW now st)).selectedAxis
          = st.selectedAxis)
    ∧ ((keyPressed .DOWN_ARROW now st).turnCounter = 0
      ∧ (keyPressed .UP_ARROW now st).turnCounter = 0
      ∧ (keyPressed .LEFT_ARROW now st).turnCounter = 0
      ∧ (keyPressed .RIGHT_ARROW now st).turnCounter = 0) := by
  have hidx : st.selectedIndex = 0 ∨ st.selectedIndex = 1 ∨ st.selectedIndex = 2 := by
    simp only [cubeSize] at hi
    push_cast at hi
    omega
  refine ⟨?_, ?_, ?_, ⟨rfl, rfl, rfl, rfl⟩⟩
  · refine ⟨rfl, ?_, rfl, ?_⟩
    · rcases hidx with h | h | h <;> simp [keyPressed, applyAllRotations, cubeSize, h]
    · rcases ha with h | h | h <;> simp [keyPressed, applyAllRotations, h]
  · refine ⟨?_, ?_, ?_, ?_⟩
    · rcases hidx with h | h | h <;> simp [keyPressed, applyAllRotations, cubeSize, h]
    · rcases hidx with h | h | h <;> simp [keyPressed, applyAllRotations, cubeSize, h]
    · rcases ha with h | h | h <;> simp [keyPressed, applyAllRotations, h]
    · rcases ha with h | h | h <;> simp [keyPressed, applyAllRotations, h]
  · refine ⟨?_, ?_, ?_, ?_⟩
    · rcases hidx with h | h | h <;> simp [keyPressed, applyAllRotations, cubeSize, h]
    · rcases hidx with h | h | h <;> simp [keyPressed, applyAllRotations, cubeSize, h]
    · rcases ha with h | h | h <;> simp [keyPressed, applyAllRotations, h]
    · rcases ha with h | h | h <;> simp [keyPressed, applyAllRotations, h]

/-- Witness for C13: the fresh lattice, where the selection is X, layer 0. -/
theorem keyPressed_wraparound_witness :
    (keyPressed .UP_ARROW 0 fresh).selectedIndex = (fresh.selectedIndex - 1) % (cubeSize : Int)
    ∧ (keyPressed .UP_ARROW 0 fresh).selectedIndex = 2
    ∧ (keyPressed .RIGHT_ARROW 0 fresh).selectedAxis = 2
    ∧ (keyPressed .DOWN_ARROW 0 (keyPressed .UP_ARROW 0 fresh)).selectedIndex
        = fresh.selectedIndex :=
  ⟨(keyPressed_wraparound 0 fresh (by decide) (by decide)).1.2.1,
   by decide, by decide,
   (keyPressed_wraparound 0 fresh (by decide) (by decide)).2.2.1.2.1⟩

/-! ## C17: the space key -/

/-- C17 (enqueue): the space key adds one to `turnCounter`, sets
`turnAnimStartTime` to the current time exactly when the counter was 0 and
keeps it otherwise, and changes neither the pieces nor the selection. -/
theorem keyPressed_space (now : ℝ) (st : State) :
    (keyPressed .space now st).turnCounter = st.turnCounter + 1
    ∧ (st.turnCounter = 0 → (keyPressed .space now st).turnAnimStartTime = now)
    ∧ (st.turnCounter ≠ 0 →
        (keyPressed .space now st).turnAnimStartTime = st.turnAnimStartTime)
    ∧ (keyPressed .space now st).cubes = st.cubes
    ∧ (keyPressed .space now st).selectedAxis = st.selectedAxis
    ∧ (keyPressed .space now st).selectedIndex = st.selectedIndex := by
  by_cases h : st.turnCounter = 0 <;> simp [keyPressed, h]

/-! ## C14: orientations stay unit quaternions -/

theorem magnitude_eq_one_iff (q : Quaternion) :
    q.magnitude = 1 ↔ q.w * q.w + q.i * q.i + q.j * q.j + q.k * q.k = 1 := by
  unfold Quaternion.magnitude
  exact Real.sqrt_eq_one

theorem magnitude_mult (q r : Quaternion) (hq : q.magnitude = 1) (hr : r.magnitude = 1) :
    (Quaternion.mult q r).magnitude = 1 := by
  rw [magnitude_eq_one_iff] at hq hr ⊢
  rw [mult_components]
  simp only
  have h : (q.w * q.w + q.i * q.i + q.j * q.j + q.k * q.k)
      * (r.w * r.w + r.i * r.i + r.j * r.j + r.k * r.k) = 1 := by rw [hq, hr]; norm_num
  linear_combination h

theorem axis_quats_unit :
    xQuat.magnitude = 1 ∧ yQuat.magnitude = 1 ∧ zQuat.magnitude = 1 := by
  have h := half_sqrt_two_sq
  refine ⟨?_, ?_, ?_⟩
  · rw [magnitude_eq_one_iff, xQuat_eq]; simp only; linarith
  · rw [magnitude_eq_one_iff, yQuat_eq]; simp only; linarith
  · rw [magnitude_eq_one_iff, zQuat_eq]; simp only; linarith

theorem turnCube_unit (axis : Int) (c : Cube) (h : c.rot.magnitude = 1) :
    (turnCube axis c).rot.magnitude = 1 := by
  have hu := axis_quats_unit
  unfold turnCube
  by_cases h0 : axis = 0
  · simp only [h0, if_true]; exact magnitude_mult _ _ hu.1 h
  · by_cases h1 : axis = 1
    · simp only [h1, if_true, one_ne_zero, if_false]; exact magnitude_mult _ _ hu.2.1 h
    · by_cases h2 : axis = 2
      · simp only [h2, if_true]
        simp only [show ¬ (2 : Int) = 0 by decide, show ¬ (2 : Int) = 1 by decide, if_false]
        exact magnitude_mult _ _ hu.2.2 h
      · simp only [h0, h1, h2, if_false]; exact h

theorem iterate_turnCube_unit (axis : Int) (n : Nat) (c : Cube) (h : c.rot.magnitude = 1) :
    ((turnCube axis)^[n] c).rot.magnitude = 1 := by
  induction n generalizing c with
  | zero => simpa using h
  | succ n ih =>
    rw [Function.iterate_succ, Function.comp_apply]
    exact ih _ (turnCube_unit axis c h)

theorem applyAllRotations_unit (st : State) (h : ∀ c ∈ st.cubes, c.rot.magnitude = 1) :
    ∀ c ∈ (applyAllRotations st).cubes, c.rot.magnitude = 1 := by
  intro c hc
  rw [applyAllRotations_cubes, List.mem_map] at hc
  obtain ⟨d, hd, rfl⟩ := hc
  by_cases hs : isCubeSelected st d = true
  · simp only [hs, if_true]
    exact iterate_turnCube_unit _ _ d (h d hd)
  · simp only [hs]
    exact h d hd

theorem commitTurns_unit (turns : List (Int × Int × Nat)) (st : State)
    (h : ∀ c ∈ st.cubes, c.rot.magnitude = 1) :
    ∀ c ∈ (commitTurns turns st).cubes, c.rot.magnitude = 1 := by
  induction turns generalizing st with
  | nil => simpa [commitTurns] using h
  | cons t ts ih =>
    have := ih (applyAllRotations (st.queued t.1 t.2.1 t.2.2))
      (applyAllRotations_unit _ h)
    simpa [commitTurns] using this

theorem fresh_unit : ∀ c ∈ fresh.cubes, c.rot.magnitude = 1 := by
  intro c hc
  rw [fresh_cubes] at hc
  rw [setupCubes_rot c hc, magnitude_eq_one_iff]
  norm_num

/-- C14 (unit magnitude): every orientation of the lattice built by `setup`
has magnitude 1, and after any sequence of commits (any selection, any
counts) every orientation still has magnitude exactly 1, without any call of
`normalise`. -/
theorem unit_magnitude_invariant (turns : List (Int × Int × Nat)) :
    (∀ c ∈ fresh.cubes, c.rot.magnitude = 1)
    ∧ ∀ c ∈ (commitTurns turns fresh).cubes, c.rot.magnitude = 1 :=
  ⟨fresh_unit, commitTurns_unit turns fresh fresh_unit⟩

/-! ## Rounding to doubles -/

theorem axisAngleWith_exact (q : Quaternion) : q.axisAngleWith exactMath = q.axisAngle := rfl

theorem fromAxisAngleWith_exact (axis : ℝ × ℝ × ℝ) (angle : ℝ) :
    Quaternion.fromAxisAngleWith exactMath axis angle = Quaternion.fromAxisAngle axis angle :=
  rfl

theorem log_two_eq (x : ℝ) (e : ℤ) (hx : 0 < x) (h1 : (2 : ℝ) ^ e ≤ x)
    (h2 : x < (2 : ℝ) ^ (e + 1)) : Int.log 2 x = e := by
  have hb : 1 < (2 : ℕ) := by norm_num
  have ha : e ≤ Int.log 2 x := by
    rw [← Int.zpow_le_iff_le_log hb hx]; exact_mod_cast h1
  have hc : Int.log 2 x < e + 1 := by
    rw [← Int.lt_zpow_iff_log_lt hb hx]; exact_mod_cast h2
  omega

theorem roundDouble_zero : roundDouble 0 = 0 := by
  simp [roundDouble]

theorem roundDouble_pos (x : ℝ) (hx : 0 < x) : 0 < roundDouble x := by
  have hb : 1 < (2 : ℕ) := by norm_num
  unfold roundDouble
  rw [abs_of_pos hx]
  have hp : (0 : ℝ) < (2 : ℝ) ^ (Int.log 2 x - 52) := by positivity
  have hle : (2 : ℝ) ^ (Int.log 2 x) ≤ x := by
    have := Int.zpow_log_le_self hb hx
    exact_mod_cast this
  have hq : (2 : ℝ) ^ (52 : ℤ) ≤ x / (2 : ℝ) ^ (Int.log 2 x - 52) := by
    rw [le_div_iff₀ hp, ← zpow_add₀ (by norm_num : (2 : ℝ) ≠ 0)]
    simpa using hle
  have hr : (1 : ℤ) ≤ round (x / (2 : ℝ) ^ (Int.log 2 x - 52)) := by
    rw [round_eq, Int.le_floor]
    have : (1 : ℝ) ≤ (2 : ℝ) ^ (52 : ℤ) := by norm_num
    push_cast
    linarith
  have hr1 : (1 : ℝ) ≤ (round (x / (2 : ℝ) ^ (Int.log 2 x - 52)) : ℝ) := by exact_mod_cast hr
  positivity

theorem roundDouble_cos_small : roundDouble (Real.cos ((2 : ℝ) ^ (-30 : ℤ) / 2)) = 1 := by
  have hx : (2 : ℝ) ^ (-30 : ℤ) / 2 = 1 / 2147483648 := by norm_num
  rw [hx]
  have hlow := Real.one_sub_sq_div_two_le_cos (x := (1 / 2147483648 : ℝ))
  have hup : Real.cos (1 / 2147483648) < 1 := by
    apply lt_of_le_of_ne (Real.cos_le_one _)
    intro h
    rw [Real.cos_eq_one_iff_of_lt_of_lt (by linarith [Real.pi_pos]) (by linarith [Real.pi_gt_three])] at h
    norm_num at h
  have hpos : 0 < Real.cos (1 / 2147483648) := by norm_num at hlow; linarith
  have hlog : Int.log 2 (Real.cos (1 / 2147483648)) = -1 := by
    apply log_two_eq _ _ hpos
    · norm_num at hlow ⊢; linarith
    · simpa using hup
  unfold roundDouble
  rw [abs_of_pos hpos, hlog]
  have hr : round (Real.cos (1 / 2147483648) / (2 : ℝ) ^ ((-1 : ℤ) - 52)) = 9007199254740992 := by
    rw [round_eq, Int.floor_eq_iff]
    norm_num at hlow ⊢
    constructor <;> linarith
  rw [hr]
  norm_num

theorem roundDouble_pi : roundDouble Real.pi = MATH_PI := by
  have h1 := Real.pi_gt_d20
  have h2 := Real.pi_lt_d20
  have hlog : Int.log 2 Real.pi = 1 := by
    apply log_two_eq _ _ Real.pi_pos
    · norm_num; linarith
    · norm_num; linarith
  unfold roundDouble MATH_PI
  rw [abs_of_pos Real.pi_pos, hlog]
  have hr : round (Real.pi / (2 : ℝ) ^ ((1 : ℤ) - 52)) = 7074237752028440 := by
    rw [round_eq, Int.floor_eq_iff]
    norm_num at h1 h2 ⊢
    constructor <;> linarith
  rw [hr]
  norm_num

theorem MATH_PI_lt_pi : 0 < MATH_PI ∧ MATH_PI < Real.pi := by
  have h1 := Real.pi_gt_d20
  unfold MATH_PI
  constructor
  · norm_num
  · norm_num at h1 ⊢; linarith

/-! ## C15: `axisAngle` at the identity and its negation -/

theorem unit_w_bounds (q : Quaternion) (hq : q.magnitude = 1) : -1 ≤ q.w ∧ q.w ≤ 1 := by
  rw [magnitude_eq_one_iff] at hq
  constructor <;> nlinarith [mul_self_nonneg q.i, mul_self_nonneg q.j, mul_self_nonneg q.k]

theorem axisAngle_angle (q : Quaternion) : q.axisAngle.angle = 2 * Real.arccos q.w := by
  simp only [Quaternion.axisAngle]
  split_ifs <;> rfl

theorem sin_half_angle (q : Quaternion) :
    Real.sin (q.axisAngle.angle / 2) = √(1 - q.w ^ 2) := by
  have hangle := axisAngle_angle q
  rw [hangle, show 2 * Real.arccos q.w / 2 = Real.arccos q.w by ring, Real.sin_arccos]

/-- In exact real arithmetic, on a unit quaternion `axisAngle` returns
`angle = 2*acos(w)` with `w` in the domain of `acos`; when `sin(angle/2)` is not
0 the axis is `(i,j,k)/sin(angle/2)`, a unit vector; when it is 0, which happens
exactly for the identity and its negation, the axis is the fallback `(1,0,0)`. -/
theorem axisAngle_unit (q : Quaternion) (hq : q.magnitude = 1) :
    q.axisAngle.angle = 2 * Real.arccos q.w
    ∧ (-1 ≤ q.w ∧ q.w ≤ 1)
    ∧ (Real.sin (q.axisAngle.angle / 2) ≠ 0 →
        q.axisAngle.axis = ⟨q.i / Real.sin (q.axisAngle.angle / 2),
                            q.j / Real.sin (q.axisAngle.angle / 2),
                            q.k / Real.sin (q.axisAngle.angle / 2)⟩
        ∧ q.axisAngle.axis.mag = 1)
    ∧ (Real.sin (q.axisAngle.angle / 2) = 0 → q.axisAngle.axis = ⟨1, 0, 0⟩)
    ∧ (Real.sin (q.axisAngle.angle / 2) = 0 ↔ q = ⟨1, 0, 0, 0⟩ ∨ q = ⟨-1, 0, 0, 0⟩) := by
  have hangle := axisAngle_angle q
  have hw := unit_w_bounds q hq
  have hsum := (magnitude_eq_one_iff q).mp hq
  have hnn : 0 ≤ 1 - q.w ^ 2 := by nlinarith
  have hs := sin_half_angle q
  have hsq : Real.sin (q.axisAngle.angle / 2) * Real.sin (q.axisAngle.angle / 2)
      = q.i * q.i + q.j * q.j + q.k * q.k := by
    rw [hs, Real.mul_self_sqrt hnn]; linarith
  refine ⟨hangle, hw, ?_, ?_, ?_⟩
  · intro hne
    have haxis : q.axisAngle.axis = ⟨q.i / Real.sin (q.axisAngle.angle / 2),
        q.j / Real.sin (q.axisAngle.angle / 2), q.k / Real.sin (q.axisAngle.angle / 2)⟩ := by
      rw [hangle] at hne ⊢
      simp only [Quaternion.axisAngle]
      rw [if_pos hne]
    refine ⟨haxis, ?_⟩
    rw [haxis]
    unfold Vector.mag
    rw [Real.sqrt_eq_one]
    simp only
    field_simp
    linarith
  · intro h0
    rw [hangle] at h0
    simp only [Quaternion.axisAngle]
    rw [if_neg (not_not.mpr h0)]
    rfl
  · rw [hs, Real.sqrt_eq_zero hnn]
    constructor
    · intro h
      have hi : q.i = 0 := by nlinarith [mul_self_nonneg q.i, mul_self_nonneg q.j, mul_self_nonneg q.k]
      have hj : q.j = 0 := by nlinarith [mul_self_nonneg q.i, mul_self_nonneg q.j, mul_self_nonneg q.k]
      have hk : q.k = 0 := by nlinarith [mul_self_nonneg q.i, mul_self_nonneg q.j, mul_self_nonneg q.k]
      have hww : (q.w - 1) * (q.w + 1) = 0 := by nlinarith
      rcases mul_eq_zero.mp hww with h1 | h1
      · left; ext <;> simp only [hi, hj, hk]; linarith
      · right; ext <;> simp only [hi, hj, hk]; linarith
    · rintro (h | h) <;> rw [h] <;> norm_num

/-- The statement above at the quarter turn about X. -/
theorem axisAngle_unit_witness :
    xQuat.magnitude = 1 ∧ xQuat.axisAngle.angle = 2 * Real.arccos xQuat.w :=
  ⟨axis_quats_unit.1, (axisAngle_unit xQuat axis_quats_unit.1).1⟩

/-- C15: on doubles `axisAngle` does not take the fallback at the negated
identity `(-1,0,0,0)`, a unit quaternion. `Math.acos(-1)` is `Math.PI`, the
angle is `2 * Math.PI` and `Math.sin(Math.PI)` is not 0, so the code divides and
returns the axis `(0,0,0)`, which is neither the fallback `(1,0,0)` nor a unit
vector. At the identity the fallback is taken, and in exact arithmetic it is
taken at both. -/
theorem axisAngle_negated_identity_divides :
    (⟨-1, 0, 0, 0⟩ : Quaternion).magnitude = 1
    ∧ doubleMath.acos (-1) = MATH_PI
    ∧ (Quaternion.axisAngleWith doubleMath ⟨-1, 0, 0, 0⟩).angle = 2 * MATH_PI
    ∧ doubleMath.sin (2 * MATH_PI / 2) ≠ 0
    ∧ (Quaternion.axisAngleWith doubleMath ⟨-1, 0, 0, 0⟩).axis = ⟨0, 0, 0⟩
    ∧ (Quaternion.axisAngleWith doubleMath ⟨-1, 0, 0, 0⟩).axis ≠ ⟨1, 0, 0⟩
    ∧ (Quaternion.axisAngleWith doubleMath ⟨-1, 0, 0, 0⟩).axis.mag ≠ 1
    ∧ (Quaternion.axisAngleWith doubleMath ⟨1, 0, 0, 0⟩).axis = ⟨1, 0, 0⟩
    ∧ (Quaternion.axisAngle ⟨-1, 0, 0, 0⟩).axis = ⟨1, 0, 0⟩ := by
  have hacos : doubleMath.acos (-1) = MATH_PI := by
    show roundDouble (Real.arccos (-1)) = MATH_PI
    rw [Real.arccos_neg_one, roundDouble_pi]
  have hhalf : 2 * MATH_PI / 2 = MATH_PI := by ring
  have hsin : doubleMath.sin (2 * MATH_PI / 2) ≠ 0 := by
    show roundDouble (Real.sin (2 * MATH_PI / 2)) ≠ 0
    rw [hhalf]
    exact (roundDouble_pos _
      (Real.sin_pos_of_pos_of_lt_pi MATH_PI_lt_pi.1 MATH_PI_lt_pi.2)).ne'
  have haxis : (Quaternion.axisAngleWith doubleMath ⟨-1, 0, 0, 0⟩).axis = ⟨0, 0, 0⟩ := by
    simp only [Quaternion.axisAngleWith]
    rw [hacos, if_pos hsin]
    simp
  refine ⟨?_, hacos, ?_, hsin, haxis, ?_, ?_, ?_, ?_⟩
  · rw [magnitude_eq_one_iff]; norm_num
  · simp only [Quaternion.axisAngleWith]
    rw [hacos]
    split_ifs <;> rfl
  · rw [haxis]
    intro h
    have := congrArg Vector.x h
    norm_num at this
  · rw [haxis]
    simp [Vector.mag]
  · have h0 : doubleMath.sin (2 * doubleMath.acos 1 / 2) = 0 := by
      show roundDouble (Real.sin (2 * roundDouble (Real.arccos 1) / 2)) = 0
      rw [Real.arccos_one, roundDouble_zero]
      simp [roundDouble_zero]
    simp only [Quaternion.axisAngleWith]
    rw [if_neg (not_not.mpr h0)]
    rfl
  · exact (axisAngle_unit ⟨-1, 0, 0, 0⟩ (by rw [magnitude_eq_one_iff]; norm_num)).2.2.2.1
      (((axisAngle_unit ⟨-1, 0, 0, 0⟩ (by rw [magnitude_eq_one_iff]; norm_num)).2.2.2.2).mpr
        (Or.inr rfl))

/-! ## C16: the lattice built by `setup` -/

/-- C16 (lattice construction): on an empty `cubes` list `setup` creates 26
pieces with pairwise distinct coordinates, one for each triple of `[0,2]^3`
that has a coordinate equal to 0 or 2 and none for `(1,1,1)`, each with the
identity orientation `(1,0,0,0)`. -/
theorem setup_lattice (st : State) :
    (setup { st with cubes := [] }).cubes.length = 26
    ∧ ((setup { st with cubes := [] }).cubes.map Cube.pos).Nodup
    ∧ (∀ p : Int × Int × Int, p ∈ (setup { st with cubes := [] }).cubes.map Cube.pos ↔
        ((0 ≤ p.1 ∧ p.1 ≤ 2) ∧ (0 ≤ p.2.1 ∧ p.2.1 ≤ 2) ∧ (0 ≤ p.2.2 ∧ p.2.2 ≤ 2))
        ∧ (p.1 = 0 ∨ p.1 = 2 ∨ p.2.1 = 0 ∨ p.2.1 = 2 ∨ p.2.2 = 0 ∨ p.2.2 = 2))
    ∧ (1, 1, 1) ∉ (setup { st with cubes := [] }).cubes.map Cube.pos
    ∧ ∀ c ∈ (setup { st with cubes := [] }).cubes, c.rot = ⟨1, 0, 0, 0⟩ := by
  have hc : (setup { st with cubes := [] }).cubes = setupCubes := by simp [setup]
  rw [hc]
  refine ⟨?_, ?_, ?_, ?_, setupCubes_rot⟩
  · rw [← List.length_map setupCubes Cube.pos, setupCubes_pos]; rfl
  · rw [setupCubes_pos]; decide
  · rw [setupCubes_pos]
    rintro ⟨x, y, z⟩
    simp only [List.mem_cons, Prod.mk.injEq, List.mem_singleton, List.not_mem_nil, or_false]
    constructor
    · intro h
      omega
    · rintro ⟨⟨⟨hx0, hx2⟩, ⟨hy0, hy2⟩, ⟨hz0, hz2⟩⟩, hb⟩
      have hx : x = 0 ∨ x = 1 ∨ x = 2 := by omega
      have hy : y = 0 ∨ y = 1 ∨ y = 2 := by omega
      have hz : z = 0 ∨ z = 1 ∨ z = 2 := by omega
      rcases hx with rfl | rfl | rfl <;> rcases hy with rfl | rfl | rfl <;>
        rcases hz with rfl | rfl | rfl <;> simp at hb ⊢
  · rw [setupCubes_pos]; decide

/-! ## C18: a common orientation reads as solved -/

/-- C18: when all pieces carry the same unit quaternion, whose `w` then lies
in the domain of `acos`, `isRCubeSolved` returns `true` (also on an empty
list). -/
theorem isRCubeSolved_common (st : State) (q : Quaternion) (hq : q.magnitude = 1)
    (hall : ∀ c ∈ st.cubes, c.rot = q) :
    isRCubeSolved st = true ∧ (-1 ≤ q.w ∧ q.w ≤ 1) := by
  refine ⟨?_, unit_w_bounds q hq⟩
  cases hcs : st.cubes with
  | nil => simp [isRCubeSolved, hcs]
  | cons c l =>
    rw [isRCubeSolved_cons st c l hcs]
    intro d hd
    have hc : c.rot = q := hall c (by rw [hcs]; exact List.mem_cons_self _ _)
    have hd1 : d.rot = q := hall d (by rw [hcs]; exact List.mem_cons_of_mem _ hd)
    unfold pieceAxis pieceAngle
    rw [hc, hd1]
    refine ⟨rfl, ?_⟩
    norm_num

/-- Witness for C18: the fresh lattice, where every orientation is the
identity, reads as solved. -/
theorem isRCubeSolved_common_witness : isRCubeSolved fresh = true :=
  (isRCubeSolved_common fresh ⟨1, 0, 0, 0⟩
    (by rw [magnitude_eq_one_iff]; norm_num)
    (fun c hc => setupCubes_rot c (by rw [← fresh_cubes]; exact hc))).1

/-! ## C19: the coordinate rule is the rotation by the axis quaternion -/

/-- C19: for each axis, the position that a committed quarter turn assigns
to a piece, taken relative to the centre `(1,1,1)`, is the old centred
position `v` rotated by the axis quaternion, `q * v * conj q`; `conj q` is the
inverse of `q`. -/
theorem turnCube_is_rotation (c : Cube) :
    Quaternion.mult (Quaternion.mult xQuat ⟨0, c.xPos - 1, c.yPos - 1, c.zPos - 1⟩)
        xQuat.conj
      = ⟨0, (turnCube 0 c).xPos - 1, (turnCube 0 c).yPos - 1, (turnCube 0 c).zPos - 1⟩
    ∧ Quaternion.mult (Quaternion.mult yQuat ⟨0, c.xPos - 1, c.yPos - 1, c.zPos - 1⟩)
        yQuat.conj
      = ⟨0, (turnCube 1 c).xPos - 1, (turnCube 1 c).yPos - 1, (turnCube 1 c).zPos - 1⟩
    ∧ Quaternion.mult (Quaternion.mult zQuat ⟨0, c.xPos - 1, c.yPos - 1, c.zPos - 1⟩)
        zQuat.conj
      = ⟨0, (turnCube 2 c).xPos - 1, (turnCube 2 c).yPos - 1, (turnCube 2 c).zPos - 1⟩
    ∧ Quaternion.mult xQuat xQuat.conj = ⟨1, 0, 0, 0⟩
    ∧ Quaternion.mult yQuat yQuat.conj = ⟨1, 0, 0, 0⟩
    ∧ Quaternion.mult zQuat zQuat.conj = ⟨1, 0, 0, 0⟩ := by
  have h := half_sqrt_two_sq
  refine ⟨?_, ?_, ?_, ?_, ?_, ?_⟩
  · rw [xQuat_eq, mult_components, mult_components]
    ext <;> simp only [turnCube, rotCoords, cubeSize, Quaternion.conj, if_true] <;> push_cast
    · ring
    · linear_combination (2 * ((c.xPos : ℝ) - 1)) * h
    · linear_combination (-2 * ((c.zPos : ℝ) - 1)) * h
    · linear_combination (2 * ((c.yPos : ℝ) - 1)) * h
  · rw [yQuat_eq, mult_components, mult_components]
    ext <;> simp only [turnCube, rotCoords, cubeSize, Quaternion.conj, if_true, one_ne_zero,
      if_false] <;> push_cast
    · ring
    · linear_combination (2 * ((c.zPos : ℝ) - 1)) * h
    · linear_combination (2 * ((c.yPos : ℝ) - 1)) * h
    · linear_combination (-2 * ((c.xPos : ℝ) - 1)) * h
  · rw [zQuat_eq, mult_components, mult_components]
    ext <;> simp only [turnCube, rotCoords, cubeSize, Quaternion.conj, if_true,
      show ¬ (2 : Int) = 0 by decide, show ¬ (2 : Int) = 1 by decide, if_false] <;> push_cast
    · ring
    · linear_combination (-2 * ((c.yPos : ℝ) - 1)) * h
    · linear_combination (2 * ((c.xPos : ℝ) - 1)) * h
    · linear_combination (2 * ((c.zPos : ℝ) - 1)) * h
  · rw [xQuat_eq, mult_components]
    ext <;> simp only [Quaternion.conj] <;> linarith
  · rw [yQuat_eq, mult_components]
    ext <;> simp only [Quaternion.conj] <;> linarith
  · rw [zQuat_eq, mult_components]
    ext <;> simp only [Quaternion.conj] <;> linarith

/-! ## C20: from axis and angle and back -/

/-- C20, as stated, fails on doubles: for the unit axis `(0,0,1)` and the
angle `2^-30`, `Math.cos` of the half angle rounds to 1, so `axisAngle()`
computes the angle `2 * Math.acos(1) = 0`, finds `Math.sin(0) = 0` and returns
the fallback axis `(1,0,0)` with the angle 0. -/
theorem round_trip_small_angle_counterexample :
    (createVector 0 0 1).mag = 1
    ∧ (0 : ℝ) < (2 : ℝ) ^ (-30 : ℤ) ∧ (2 : ℝ) ^ (-30 : ℤ) < 2 * Real.pi
    ∧ (Quaternion.fromAxisAngleWith doubleMath (0, 0, 1) ((2 : ℝ) ^ (-30 : ℤ))).w = 1
    ∧ (Quaternion.axisAngleWith doubleMath
        (Quaternion.fromAxisAngleWith doubleMath (0, 0, 1) ((2 : ℝ) ^ (-30 : ℤ)))).angle = 0
    ∧ (Quaternion.axisAngleWith doubleMath
        (Quaternion.fromAxisAngleWith doubleMath (0, 0, 1) ((2 : ℝ) ^ (-30 : ℤ)))).axis
        = createVector 1 0 0
    ∧ (Quaternion.axisAngleWith doubleMath
        (Quaternion.fromAxisAngleWith doubleMath (0, 0, 1) ((2 : ℝ) ^ (-30 : ℤ)))).angle
        ≠ (2 : ℝ) ^ (-30 : ℤ)
    ∧ (Quaternion.axisAngleWith doubleMath
        (Quaternion.fromAxisAngleWith doubleMath (0, 0, 1) ((2 : ℝ) ^ (-30 : ℤ)))).axis
        ≠ createVector 0 0 1 := by
  have hw : (Quaternion.fromAxisAngleWith doubleMath (0, 0, 1) ((2 : ℝ) ^ (-30 : ℤ))).w = 1 :=
    roundDouble_cos_small
  have hacos : doubleMath.acos 1 = 0 := by
    show roundDouble (Real.arccos 1) = 0
    rw [Real.arccos_one, roundDouble_zero]
  have hs : doubleMath.sin (2 * 0 / 2) = 0 := by
    show roundDouble (Real.sin (2 * 0 / 2)) = 0
    simp [roundDouble_zero]
  have hangle : (Quaternion.axisAngleWith doubleMath
      (Quaternion.fromAxisAngleWith doubleMath (0, 0, 1) ((2 : ℝ) ^ (-30 : ℤ)))).angle = 0 := by
    simp only [Quaternion.axisAngleWith]
    rw [hw, hacos]
    split_ifs <;> simp
  have haxis : (Quaternion.axisAngleWith doubleMath
      (Quaternion.fromAxisAngleWith doubleMath (0, 0, 1) ((2 : ℝ) ^ (-30 : ℤ)))).axis
      = createVector 1 0 0 := by
    simp only [Quaternion.axisAngleWith]
    rw [hw, hacos, if_neg (not_not.mpr hs)]
  refine ⟨by simp [Vector.mag, createVector], by positivity, ?_, hw, hangle, haxis, ?_, ?_⟩
  · have := Real.pi_gt_three
    have h2 : (2 : ℝ) ^ (-30 : ℤ) < 1 := by norm_num
    linarith
  · rw [hangle]
    have : (0 : ℝ) < (2 : ℝ) ^ (-30 : ℤ) := by positivity
    exact this.ne
  · rw [haxis]
    intro h
    have := congrArg Vector.x h
    simp [createVector] at this

/-- C20, amended: in exact real arithmetic, for a unit vector `axis` and
`0 < angle < 2*pi`, `fromAxisAngle(axis, angle)` is a unit quaternion and its
`axisAngle()` returns the same angle and the same axis. -/
theorem axisAngle_fromAxisAngle (axis : ℝ × ℝ × ℝ) (angle : ℝ)
    (hunit : (createVector axis.1 axis.2.1 axis.2.2).mag = 1)
    (h0 : 0 < angle) (h1 : angle < 2 * Real.pi) :
    (Quaternion.fromAxisAngle axis angle).axisAngle.angle = angle
    ∧ (Quaternion.fromAxisAngle axis angle).axisAngle.axis
        = createVector axis.1 axis.2.1 axis.2.2
    ∧ (Quaternion.fromAxisAngle axis angle).magnitude = 1 := by
  have harc : Real.arccos (Real.cos (angle / 2)) = angle / 2 :=
    Real.arccos_cos (by linarith) (by linarith)
  have hsin : 0 < Real.sin (angle / 2) :=
    Real.sin_pos_of_pos_of_lt_pi (by linarith) (by linarith)
  have hw : (Quaternion.fromAxisAngle axis angle).w = Real.cos (angle / 2) := rfl
  have hangle : (Quaternion.fromAxisAngle axis angle).axisAngle.angle = angle := by
    rw [axisAngle_angle, hw, harc]; ring
  have hs : Real.sin (2 * Real.arccos (Quaternion.fromAxisAngle axis angle).w / 2)
      = Real.sin (angle / 2) := by
    rw [hw, harc]; congr 1; ring
  refine ⟨hangle, ?_, ?_⟩
  · simp only [Quaternion.axisAngle]
    rw [if_pos (by rw [hs]; exact hsin.ne'), hs]
    simp only [Quaternion.fromAxisAngle, createVector]
    ext <;> simp only <;> field_simp
  · unfold Vector.mag createVector at hunit
    rw [Real.sqrt_eq_one] at hunit
    simp only at hunit
    rw [magnitude_eq_one_iff]
    simp only [Quaternion.fromAxisAngle]
    have hcs := Real.sin_sq_add_cos_sq (angle / 2)
    have hexp : Real.cos (angle / 2) * Real.cos (angle / 2)
        + axis.1 * Real.sin (angle / 2) * (axis.1 * Real.sin (angle / 2))
        + axis.2.1 * Real.sin (angle / 2) * (axis.2.1 * Real.sin (angle / 2))
        + axis.2.2 * Real.sin (angle / 2) * (axis.2.2 * Real.sin (angle / 2))
        = Real.cos (angle / 2) ^ 2
          + (axis.1 * axis.1 + axis.2.1 * axis.2.1 + axis.2.2 * axis.2.2)
            * Real.sin (angle / 2) ^ 2 := by ring
    rw [hexp, hunit]
    linarith

/-- Witness for C20: the quarter turn about X, as built for `xQuat`. -/
theorem axisAngle_fromAxisAngle_witness :
    (Quaternion.fromAxisAngle (1, 0, 0) (Real.pi / 2)).axisAngle.angle = Real.pi / 2
    ∧ (Quaternion.fromAxisAngle (1, 0, 0) (Real.pi / 2)).axisAngle.axis = createVector 1 0 0
    ∧ (Quaternion.fromAxisAngle (1, 0, 0) (Real.pi / 2)).magnitude = 1 :=
  axisAngle_fromAxisAngle (1, 0, 0) (Real.pi / 2)
    (by simp [Vector.mag, createVector])
    (by linarith [Real.pi_pos]) (by linarith [Real.pi_pos])

end Rubiks
